import Mathlib

/-!
# The experience store of the ShashChess engine

A shallow embedding of `learn.cpp` (the persisted-learning store `LearningData`)
and the properties of its merge policy, loader, persister and recovery routine.

The hash table `HT` of the source holds pointers into malloc-ed buffers.  Every
pointer stored in `HT` addresses a record that no other entry addresses (each call
of `insert_or_update` is handed a fresh record: a record of a buffer just read by
`load`, or the record just allocated by `add_new_learning`), and the source writes
through these pointers only inside `insert_or_update`.  The embedding therefore
stores, for every entry, the record its pointer addresses; a pointer to an entry is
the pair of its key and its position among the entries of that key.
-/

namespace ShashChess

/-! ## Data model -/

/-- A position key: `Key` is `uint64_t` in the engine. -/
abbrev Key := Nat

/-- An encoded move: `Move` is an `int`-sized enumeration, used here only through `==`. -/
abbrev Move := Nat

/-- Modelled from the spec: `learn.h` is absent from the sources; section 3 of the
specification gives `LearningMove` as a move with the depth and the score behind it. -/
structure LearningMove where
  depth : Int
  score : Int
  move : Move
deriving DecidableEq, Repr, Inhabited

/-- Modelled from the spec: the on-disk record of `learn.h` (absent from the sources),
a position key followed by a learning move. -/
structure PersistedLearningMove where
  key : Key
  learningMove : LearningMove
deriving DecidableEq, Repr, Inhabited

/-- Modelled from the spec: the enumeration `PersistedLearningUsage` of `learn.h`
(absent from the sources), with the three values `setUsePersistedLearning` assigns. -/
inductive PersistedLearningUsage where
  | Off
  | Standard
  | Self
deriving DecidableEq, Repr

/-- Modelled from the spec: the container type of `HT` is declared in `learn.h`, which is
absent from the sources.  Section 3 of the specification describes it as a multi-valued
map from a key to an ordered sequence of entries whose first entry is the one `probe`
returns.  It is the list of its (key, entry) pairs in traversal order; the entries of a
key, in this order, are what `equal_range` yields. -/
abbrev HashTable := List (Key × LearningMove)

/-- The range `HT.equal_range(key)`: the entries stored for `key`, first entry first. -/
def equal_range (HT : HashTable) (key : Key) : List LearningMove :=
  (HT.filter (fun kvp => kvp.1 == key)).map Prod.snd

/-- Modelled from the spec: `HT.insert({key, entry})` of the absent container.  The new
entry comes after the entries the key already has (the first entry of a key stays the
first), next to them in traversal order; the first entry of a new key goes to the end. -/
def HT_insert : HashTable → Key → LearningMove → HashTable
  | [], key, lm => [(key, lm)]
  | kvp :: rest, key, lm =>
    if kvp.1 == key && rest.all (fun q => q.1 != key) then kvp :: (key, lm) :: rest
    else kvp :: HT_insert rest key lm

/-- The assignment `*p = lm` through the pointer `p` held by the entry number `i` of `key`. -/
def HT_write : HashTable → Key → Nat → LearningMove → HashTable
  | [], _, _, _ => []
  | kvp :: rest, key, i, lm =>
    if kvp.1 == key then
      match i with
      | 0 => (kvp.1, lm) :: rest
      | j + 1 => kvp :: HT_write rest key j lm
    else kvp :: HT_write rest key i lm

/-- The record `*p` addressed by the pointer `p` held by the entry number `i` of `key`. -/
def HT_deref (HT : HashTable) (key : Key) (i : Nat) : LearningMove :=
  (equal_range HT key).getD i default

/-- The search `std::find_if(first, last, pred)` over a range: the position of the first
entry that satisfies `pred`, or `none` for the end of the range. -/
def find_if (pred : LearningMove → Bool) : List LearningMove → Option Nat
  | [] => none
  | p :: rest => if pred p then some 0 else (find_if pred rest).map (· + 1)

/-- The fields of the class `LearningData`.  A buffer is recorded by its size in bytes. -/
structure LearningData where
  isPaused : Bool
  needPersisting : Bool
  HT : HashTable
  mainDataBuffers : List Nat
  newMovesDataBuffers : List Nat
deriving DecidableEq, Repr

/-- The constructor `LearningData::LearningData()`. -/
def LearningData.new : LearningData :=
  { isPaused := false, needPersisting := false, HT := [],
    mainDataBuffers := [], newMovesDataBuffers := [] }

/-! ## Merge policy -/

/-- The first half of `LearningData::insert_or_update` once the key is known to have
entries (lines 88-118): the search for the move, the insertion or the replacement, and the
pointer `bestNewMoveCandidate` (`none` for `nullptr`). -/
def insert_or_update_candidate (ld : LearningData) (plm : PersistedLearningMove) :
    LearningData × Option Nat :=
  let range := equal_range ld.HT plm.key
  let itr := find_if (fun p => p.move == plm.learningMove.move) range
  match itr with
  | none =>
    ({ ld with HT := HT_insert ld.HT plm.key plm.learningMove, needPersisting := true },
      some range.length)
  | some i =>
    let existingMove := HT_deref ld.HT plm.key i
    if existingMove.depth < plm.learningMove.depth
        ∨ (existingMove.depth = plm.learningMove.depth
            ∧ existingMove.score < plm.learningMove.score) then
      ({ ld with HT := HT_write ld.HT plm.key i plm.learningMove, needPersisting := true },
        some i)
    else (ld, none)

/-- The second half of `LearningData::insert_or_update` (lines 120-153): the test whether
the candidate is a new best move, and the exchange of the two records. -/
def insert_or_update_promote (ld : LearningData) (key : Key) (qLearning : Bool) :
    Option Nat → LearningData
  | none => ld
  | some bestNewMoveCandidate =>
    let currentBestMove := 0
    let cand := HT_deref ld.HT key bestNewMoveCandidate
    let cur := HT_deref ld.HT key currentBestMove
    let newBestMove : Bool :=
      if bestNewMoveCandidate ≠ currentBestMove then
        if qLearning then decide (cand.score > cur.score)
        else decide (cur.depth < cand.depth ∨ (cur.depth = cand.depth ∧ cur.score ≤ cand.score))
      else false
    if newBestMove then
      let lm := cand
      let HT1 := HT_write ld.HT key bestNewMoveCandidate cur
      let HT2 := HT_write HT1 key currentBestMove lm
      { ld with HT := HT2 }
    else ld

/-- The method `LearningData::insert_or_update`. -/
def insert_or_update (ld : LearningData) (plm : PersistedLearningMove) (qLearning : Bool) :
    LearningData :=
  let range := equal_range ld.HT plm.key
  if range.isEmpty then
    { ld with HT := HT_insert ld.HT plm.key plm.learningMove, needPersisting := true }
  else
    let r := insert_or_update_candidate ld plm
    insert_or_update_promote r.1 plm.key qLearning r.2

/-- The method `LearningData::probe`: the number of entries of the key and the record its
first entry addresses (`none` for `nullptr`). -/
def probe (ld : LearningData) (key : Key) : Nat × Option LearningMove :=
  let range := equal_range ld.HT key
  match range with
  | [] => (0, none)
  | first :: _ => (range.length, some first)

/-- The method `LearningData::probe_move`. -/
def probe_move (ld : LearningData) (key : Key) (move : Move) : Option LearningMove :=
  let range := equal_range ld.HT key
  if range.isEmpty then none
  else
    match find_if (fun p => p.move == move) range with
    | none => none
    | some i => some (HT_deref ld.HT key i)

/-- The method `LearningData::clear`. -/
def clear (ld : LearningData) : LearningData :=
  { ld with HT := [], mainDataBuffers := [], newMovesDataBuffers := [] }

/-- The method `LearningData::pause`. -/
def pause (ld : LearningData) : LearningData := { ld with isPaused := true }

/-- The method `LearningData::resume`. -/
def resume (ld : LearningData) : LearningData := { ld with isPaused := false }

/-- The method `LearningData::is_paused`. -/
def is_paused (ld : LearningData) : Bool := ld.isPaused

/-! ## Files and the environment of the store -/

/-- A file as `load` sees it: its length in bytes (what `tellg` reports at the end), the
records its bytes hold in file order (one per `sizeof(PersistedLearningMove)` bytes), and
whether reading it whole succeeds. -/
structure FileData where
  size : Nat
  records : List PersistedLearningMove
  readable : Bool
deriving DecidableEq, Repr

/-- The files on disk, by path. -/
abbrev FileSystem := List (String × FileData)

/-- The file at a path, if there is one (an `ifstream` that opens). -/
def fs_lookup : FileSystem → String → Option FileData
  | [], _ => none
  | (p, f) :: rest, path => if p == path then some f else fs_lookup rest path

/-- The C library call `remove(path)`: the file is deleted if it exists. -/
def fs_remove (fs : FileSystem) (path : String) : FileSystem :=
  fs.filter (fun e => e.1 != path)

/-- An `ofstream` opened with `trunc`, written and closed: the file is created or
replaced. -/
def fs_write (fs : FileSystem) (path : String) (f : FileData) : FileSystem :=
  (path, f) :: fs_remove fs path

/-- The C library call `rename(from, to)`: it fails, changing nothing, when `from` does
not exist; otherwise the file takes the new name, replacing a file already there. -/
def fs_rename (fs : FileSystem) (src dst : String) : FileSystem :=
  match fs_lookup fs src with
  | none => fs
  | some f => if src == dst then fs else fs_write (fs_remove fs src) dst f

/-- What the store takes from the rest of the engine and from the platform.
* `map_path` is `Utility::map_path` (absent from the sources);
* `concurrentExperience` is `(bool)Options["Concurrent Experience"]`;
* `persistedLearning` is the value of `Options["Persisted learning"]`;
* `sizeofPLM` is `sizeof(PersistedLearningMove)` (`learn.h` is absent);
* `malloc n` tells whether `malloc(n)` returns a block;
* `now` is the value of `now()` and `prng seed` the first `rand<uint64_t>()` of
  `PRNG(seed)` (`misc.h` is absent);
* `beyond` is what a read of one record just past the end of a block yields. -/
structure Env where
  map_path : String → String
  concurrentExperience : Bool
  persistedLearning : String
  sizeofPLM : Nat
  malloc : Nat → Bool
  now : Nat
  prng : Nat → Nat
  beyond : PersistedLearningMove

/-- The state of the process: the store `LD`, the global `usePersistedLearning`, the
function-static `uniqueStr` of `persist`, and the files on disk. -/
structure World where
  LD : LearningData
  usePersistedLearning : PersistedLearningUsage
  uniqueStr : String
  fs : FileSystem

/-- The function `setUsePersistedLearning`. -/
def setUsePersistedLearning (env : Env) (w : World) : World :=
  if env.persistedLearning == "Off" then
    { w with usePersistedLearning := PersistedLearningUsage.Off }
  else if env.persistedLearning == "Standard" then
    { w with usePersistedLearning := PersistedLearningUsage.Standard }
  else
    { w with usePersistedLearning := PersistedLearningUsage.Self }

/-! ## File loader -/

/-- The statement `mainDataBuffers.push_back(fileData)` of `load` (line 55). -/
def push_mainDataBuffer (ld : LearningData) (size : Nat) : LearningData :=
  { ld with mainDataBuffers := ld.mainDataBuffers ++ [size] }

/-- The do-while loop of `LearningData::load` (lines 60-64).  The pointer
`persistedLearningMove` is `fileData + i * sizeof(PersistedLearningMove)`; the body runs
before the bound is tested.  A read at a position the buffer does not have yields
`beyond`.  The first argument bounds the number of iterations. -/
def load_loop (sizeofPLM : Nat) (beyond : PersistedLearningMove)
    (buffer : List PersistedLearningMove) (fileSize : Nat) (qLearning : Bool) :
    Nat → Nat → LearningData → LearningData
  | 0, _, ld => ld
  | fuel + 1, i, ld =>
    let ld1 := insert_or_update ld (buffer.getD i beyond) qLearning
    if (i + 1) * sizeofPLM < fileSize then
      load_loop sizeofPLM beyond buffer fileSize qLearning fuel (i + 1) ld1
    else ld1

/-- The method `LearningData::load`: the returned flag and the state it leaves. -/
def load (env : Env) (filename : String) (w : World) : Bool × World :=
  match fs_lookup w.fs filename with
  | none => (false, w)
  | some file =>
    let fileSize := file.size
    if fileSize % env.sizeofPLM ≠ 0 then (false, w)
    else if !env.malloc fileSize then (false, w)
    else if !file.readable then (false, w)
    else
      let ld1 := push_mainDataBuffer w.LD fileSize
      let qLearning := decide (w.usePersistedLearning = PersistedLearningUsage.Self)
      (true, { w with LD := load_loop env.sizeofPLM env.beyond file.records fileSize
                              qLearning (fileSize + 1) 0 ld1 })

/-- The method `LearningData::add_new_learning`. -/
def add_new_learning (env : Env) (key : Key) (lm : LearningMove) (w : World) : World :=
  if !env.malloc env.sizeofPLM then w
  else
    let ld1 := { w.LD with
      newMovesDataBuffers := w.LD.newMovesDataBuffers ++ [env.sizeofPLM] }
    let newPlm : PersistedLearningMove := { key := key, learningMove := lm }
    { w with LD := insert_or_update ld1 newPlm
                     (decide (w.usePersistedLearning = PersistedLearningUsage.Self)) }

/-! ## Persister -/

/-- The text `ss << std::hex << v` produces for a `uint64_t`: the hexadecimal digits of
`v`, lower case, without leading zeros. -/
def hex_string (v : Nat) : String :=
  String.mk (Nat.toDigits 16 (v % 2 ^ 64))

/-- The value of the function-static `uniqueStr` after the block of lines 261-271. -/
def persist_uniqueStr (env : Env) (uniqueStr : String) : String :=
  if uniqueStr.isEmpty then hex_string (env.prng env.now) else uniqueStr

/-- The names `experienceFilename` and `tempExperienceFilename` of `persist`
(lines 256-280), given the value of `uniqueStr`. -/
def persist_filenames (env : Env) (uniqueStr : String) : String × String :=
  if env.concurrentExperience then
    (env.map_path ("experience-" ++ uniqueStr ++ ".bin"),
      env.map_path ("experience_new-" ++ uniqueStr ++ ".bin"))
  else
    (env.map_path "experience.bin", env.map_path "experience_new.bin")

/-- The file `persist` writes (lines 282-290): one record per entry of `HT`, in
traversal order. -/
def persist_file (env : Env) (HT : HashTable) : FileData :=
  { size := HT.length * env.sizeofPLM,
    records := HT.map (fun kvp => { key := kvp.1, learningMove := kvp.2 }),
    readable := true }

/-- The method `LearningData::persist`. -/
def persist (env : Env) (w : World) : World :=
  if w.LD.HT.isEmpty || !w.LD.needPersisting then w
  else
    let uniqueStr :=
      if env.concurrentExperience then persist_uniqueStr env w.uniqueStr else w.uniqueStr
    let names := persist_filenames env uniqueStr
    let experienceFilename := names.1
    let tempExperienceFilename := names.2
    let fs1 := fs_write w.fs tempExperienceFilename (persist_file env w.LD.HT)
    let fs2 := fs_remove fs1 experienceFilename
    let fs3 := fs_rename fs2 tempExperienceFilename experienceFilename
    { w with LD := { w.LD with needPersisting := false }, uniqueStr := uniqueStr, fs := fs3 }

/-! ## Recovery manager -/

/-- The statement `needPersisting = false` that ends `init` (line 219). -/
def clear_needPersisting (ld : LearningData) : LearningData :=
  { ld with needPersisting := false }

/-- The loop of `LearningData::init` over the slave files (lines 198-208): the state and
the list `slaveFiles` at the `break`.  The first argument bounds the number of iterations;
`none` means the bound was reached before the `break`. -/
def init_slaves (env : Env) : Nat → Nat → World → List String → Option (World × List String)
  | 0, _, _, _ => none
  | fuel + 1, i, w, slaveFiles =>
    let slaveFile := env.map_path ("experience" ++ toString i ++ ".bin")
    let r := load env slaveFile w
    if !r.1 then some (r.2, slaveFiles)
    else init_slaves env fuel (i + 1) r.2 (slaveFiles ++ [slaveFile])

/-- The method `LearningData::init`; `fuel` bounds the iterations of its loop. -/
def init (env : Env) (fuel : Nat) (w : World) : Option World :=
  let w1 := { w with LD := clear w.LD }
  let w2 := (load env (env.map_path "experience.bin") w1).2
  let slaveFile := env.map_path "experience_new.bin"
  let r := load env "experience_new.bin" w2
  let slaveFiles := if r.1 then [slaveFile] else []
  match init_slaves env fuel 0 r.2 slaveFiles with
  | none => none
  | some (w3, slaveFiles) =>
    let w4 := if slaveFiles.length ≠ 0 then persist env w3 else w3
    let w5 := { w4 with fs := slaveFiles.foldl fs_remove w4.fs }
    some { w5 with LD := clear_needPersisting w5.LD }

/-! ## Sequences of merges -/

/-- The store after a sequence of `insert_or_update` calls, each with its own mode flag. -/
def merge_all (ld : LearningData) (calls : List (PersistedLearningMove × Bool)) :
    LearningData :=
  calls.foldl (fun s c => insert_or_update s c.1 c.2) ld

/-- The store after a sequence of `insert_or_update` calls made in one mode. -/
def merge_records (ld : LearningData) (qLearning : Bool)
    (plms : List PersistedLearningMove) : LearningData :=
  plms.foldl (fun s plm => insert_or_update s plm qLearning) ld

/-- The order on (depth, score) pairs: depth first, then score. -/
def lex_le (a b : LearningMove) : Prop :=
  a.depth < b.depth ∨ (a.depth = b.depth ∧ a.score ≤ b.score)

instance lex_le_decidable (a b : LearningMove) : Decidable (lex_le a b) :=
  inferInstanceAs (Decidable (a.depth < b.depth ∨ (a.depth = b.depth ∧ a.score ≤ b.score)))

/-! ## The entries of one key

The effect of `insert_or_update` on the entries of the key of its record, as a function
of that range alone.  These functions are not part of the source; the lemmas
`equal_range_insert_or_update_same` and `equal_range_insert_or_update_other` relate them
to `insert_or_update`. -/

/-- The range of the key after the first half of `insert_or_update`, and the position
`bestNewMoveCandidate` points to. -/
def range_candidate (range : List LearningMove) (lm : LearningMove) :
    List LearningMove × Option Nat :=
  match find_if (fun p => p.move == lm.move) range with
  | none => (range ++ [lm], some range.length)
  | some i =>
    let existingMove := range.getD i default
    if existingMove.depth < lm.depth
        ∨ (existingMove.depth = lm.depth ∧ existingMove.score < lm.score) then
      (range.set i lm, some i)
    else (range, none)

/-- The range of the key after the second half of `insert_or_update`. -/
def range_promote (range : List LearningMove) (qLearning : Bool) :
    Option Nat → List LearningMove
  | none => range
  | some c =>
    let cand := range.getD c default
    let cur := range.getD 0 default
    let newBestMove : Bool :=
      if c ≠ 0 then
        if qLearning then decide (cand.score > cur.score)
        else decide (cur.depth < cand.depth ∨ (cur.depth = cand.depth ∧ cur.score ≤ cand.score))
      else false
    if newBestMove then (range.set c cur).set 0 cand else range

/-- The range of the key of a record after `insert_or_update` of that record. -/
def range_merge (range : List LearningMove) (lm : LearningMove) (qLearning : Bool) :
    List LearningMove :=
  if range.isEmpty then [lm]
  else range_promote (range_candidate range lm).1 qLearning (range_candidate range lm).2

/-- What the entries of a key satisfy after the records `recs` have been merged for it:
no move occurs twice, every entry is one of the records and is the greatest record of its
move, and every move of a record has an entry. -/
def RangeInv (range recs : List LearningMove) : Prop :=
  (range.map (fun e => e.move)).Nodup
    ∧ (∀ e ∈ range, e ∈ recs ∧ ∀ r ∈ recs, r.move = e.move → lex_le r e)
    ∧ (∀ r ∈ recs, r.move ∈ range.map (fun e => e.move))

/-- The first entry of a range is at least every entry of the range in the order
`lex_le`. -/
def HeadMax (range : List LearningMove) : Prop :=
  ∀ b, range.head? = some b → ∀ e ∈ range, lex_le e b

/-- An environment for the round-trip example: files live under `data/`, the naming is
not concurrent, a record takes 24 bytes and every allocation succeeds. -/
def roundtrip_env : Env :=
  { map_path := fun name => "data/" ++ name, concurrentExperience := false,
    persistedLearning := "Standard", sizeofPLM := 24, malloc := fun _ => true,
    now := 1, prng := fun seed => seed, beyond := default }

/-- A process for the round-trip example: the index built from no record, and a data
directory that holds only `experience.bin`, with one record of key 7. -/
def roundtrip_world : World :=
  { LD := merge_records LearningData.new false [],
    usePersistedLearning := PersistedLearningUsage.Standard, uniqueStr := "",
    fs := [("data/experience.bin",
      { size := 24, records := [⟨7, ⟨1, 100, 11⟩⟩], readable := true })] }

/-- A file of 25 bytes: one record and one byte more, for a record width of 24 bytes. -/
def corrupt_file : FileData :=
  { size := 25, records := [⟨7, ⟨1, 100, 11⟩⟩], readable := true }

/-- A process whose data directory holds the file `corrupt_file` as `experience.bin`. -/
def corrupt_world : World :=
  { LD := merge_records LearningData.new false [⟨3, ⟨2, 5, 9⟩⟩],
    usePersistedLearning := PersistedLearningUsage.Standard, uniqueStr := "",
    fs := [("data/experience.bin", corrupt_file)] }

/-- A process that has merged one record of key 3 and has no file on disk. -/
def dirty_world : World :=
  { LD := merge_records LearningData.new false [⟨3, ⟨2, 5, 9⟩⟩],
    usePersistedLearning := PersistedLearningUsage.Standard, uniqueStr := "", fs := [] }

/-- The store with the list `newMovesDataBuffers` replaced (the index untouched). -/
def with_newMovesDataBuffers (ld : LearningData) (buffers : List Nat) : LearningData :=
  { ld with newMovesDataBuffers := buffers }

/-- An environment like `roundtrip_env` in which the 24 bytes past the end of a block
read as the record of key 99 with depth 1, score 2 and move 3. -/
def overrun_env : Env :=
  { map_path := fun name => "data/" ++ name, concurrentExperience := false,
    persistedLearning := "Standard", sizeofPLM := 24, malloc := fun _ => true,
    now := 1, prng := fun seed => seed, beyond := ⟨99, ⟨1, 2, 3⟩⟩ }

/-- A process with an empty index whose data directory holds an `experience.bin` of
length 0. -/
def empty_file_world : World :=
  { LD := LearningData.new, usePersistedLearning := PersistedLearningUsage.Standard,
    uniqueStr := "",
    fs := [("data/experience.bin", { size := 0, records := [], readable := true })] }

/-- A file of three records, of keys 1, 2 and 3. -/
def inprogress_file : FileData :=
  { size := 72, records := [⟨1, ⟨5, 10, 11⟩⟩, ⟨2, ⟨6, 20, 12⟩⟩, ⟨3, ⟨7, 30, 13⟩⟩],
    readable := true }

/-- A file of two records, of keys 4 and 5. -/
def slave_file : FileData :=
  { size := 48, records := [⟨4, ⟨8, 40, 14⟩⟩, ⟨5, ⟨9, 50, 15⟩⟩], readable := true }

/-- A process whose data directory `data/` holds `inprogress_file` as
`experience_new.bin` and nothing else. -/
def mapped_inprogress_world : World :=
  { LD := LearningData.new, usePersistedLearning := PersistedLearningUsage.Standard,
    uniqueStr := "", fs := [("data/experience_new.bin", inprogress_file)] }

/-- A process whose data directory `data/` is empty, with `inprogress_file` under the
bare name `experience_new.bin`, outside the data directory. -/
def raw_inprogress_world : World :=
  { LD := LearningData.new, usePersistedLearning := PersistedLearningUsage.Standard,
    uniqueStr := "", fs := [("experience_new.bin", inprogress_file)] }

/-- The recovery scenario: no `experience.bin`, `inprogress_file` as `experience_new.bin`
and `slave_file` as `experience0.bin`, all in the data directory `data/`. -/
def recovery_world : World :=
  { LD := LearningData.new, usePersistedLearning := PersistedLearningUsage.Standard,
    uniqueStr := "",
    fs := [("data/experience_new.bin", inprogress_file),
           ("data/experience0.bin", slave_file)] }

/-- The recovery scenario with the files under their bare names, for a path mapping that
leaves names as they are. -/
def recovery_world_unmapped : World :=
  { LD := LearningData.new, usePersistedLearning := PersistedLearningUsage.Standard,
    uniqueStr := "",
    fs := [("experience_new.bin", inprogress_file), ("experience0.bin", slave_file)] }

/-- An environment like `roundtrip_env` whose path mapping leaves names as they are. -/
def unmapped_env : Env :=
  { map_path := fun name => name, concurrentExperience := false,
    persistedLearning := "Standard", sizeofPLM := 24, malloc := fun _ => true,
    now := 1, prng := fun seed => seed, beyond := default }

/-- The names `experienceFilename` and `tempExperienceFilename` that `persist` computes in
a state (lines 256-280), the token being generated if the process has none yet. -/
def persist_names (env : Env) (w : World) : String × String :=
  persist_filenames env
    (if env.concurrentExperience then persist_uniqueStr env w.uniqueStr else w.uniqueStr)

/-- An environment with the concurrent naming in which the generator yields `v`. -/
def token_env (v : Nat) : Env :=
  { map_path := fun name => "data/" ++ name, concurrentExperience := true,
    persistedLearning := "Standard", sizeofPLM := 24, malloc := fun _ => true,
    now := 1, prng := fun _ => v, beyond := default }

/-- A second process, which has merged one record of key 5, and the files it sees. -/
def second_instance (fs : FileSystem) : World :=
  { LD := merge_records LearningData.new false [⟨5, ⟨4, 8, 2⟩⟩],
    usePersistedLearning := PersistedLearningUsage.Standard, uniqueStr := "", fs := fs }

/-! ## Lemmas on the hash table -/

theorem equal_range_cons (kvp : Key × LearningMove) (rest : HashTable) (key : Key) :
    equal_range (kvp :: rest) key
      = if kvp.1 = key then kvp.2 :: equal_range rest key else equal_range rest key := by
  unfold equal_range
  by_cases h : kvp.1 = key <;> simp [List.filter_cons, h]

theorem equal_range_eq_nil_of_all (rest : HashTable) (key : Key)
    (h : rest.all (fun q => q.1 != key) = true) : equal_range rest key = [] := by
  induction rest with
  | nil => rfl
  | cons q t ih =>
    simp only [List.all_cons, Bool.and_eq_true, bne_iff_ne, ne_eq] at h
    rw [equal_range_cons, if_neg h.1]
    exact ih (by simpa using h.2)

theorem equal_range_HT_insert_same (HT : HashTable) (key : Key) (lm : LearningMove) :
    equal_range (HT_insert HT key lm) key = equal_range HT key ++ [lm] := by
  induction HT with
  | nil => simp [HT_insert, equal_range]
  | cons kvp rest ih =>
    unfold HT_insert
    split
    · rename_i h
      simp only [Bool.and_eq_true, beq_iff_eq] at h
      have hr := equal_range_eq_nil_of_all rest key h.2
      simp [equal_range_cons, h.1, hr]
    · simp only [equal_range_cons, ih]
      split <;> simp

theorem equal_range_HT_insert_other (HT : HashTable) (key other : Key) (lm : LearningMove)
    (hne : other ≠ key) :
    equal_range (HT_insert HT key lm) other = equal_range HT other := by
  induction HT with
  | nil => simp [HT_insert, equal_range, Ne.symm hne]
  | cons kvp rest ih =>
    unfold HT_insert
    split
    · simp [equal_range_cons, Ne.symm hne]
    · simp only [equal_range_cons, ih]

theorem equal_range_HT_write_same (HT : HashTable) (key : Key) (i : Nat) (lm : LearningMove) :
    equal_range (HT_write HT key i lm) key = (equal_range HT key).set i lm := by
  induction HT generalizing i with
  | nil => simp [HT_write, equal_range]
  | cons kvp rest ih =>
    unfold HT_write
    by_cases h : kvp.1 = key
    · cases i with
      | zero => simp [equal_range_cons, h]
      | succ j => simp [equal_range_cons, h, ih]
    · simp [equal_range_cons, h, ih]

theorem equal_range_HT_write_other (HT : HashTable) (key other : Key) (i : Nat)
    (lm : LearningMove) (hne : other ≠ key) :
    equal_range (HT_write HT key i lm) other = equal_range HT other := by
  induction HT generalizing i with
  | nil => simp [HT_write, equal_range]
  | cons kvp rest ih =>
    unfold HT_write
    by_cases h : kvp.1 = key
    · have h2 : kvp.1 ≠ other := fun h3 => hne (h3.symm.trans h)
      cases i with
      | zero => simp [equal_range_cons, h, h2, Ne.symm hne]
      | succ j => simp [equal_range_cons, h, h2, ih, Ne.symm hne]
    · simp [equal_range_cons, h, ih]

theorem HT_deref_HT_write_same (HT : HashTable) (key : Key) (i j : Nat) (lm : LearningMove) :
    HT_deref (HT_write HT key i lm) key j = ((equal_range HT key).set i lm).getD j default := by
  unfold HT_deref
  rw [equal_range_HT_write_same]

theorem insert_or_update_candidate_snd (ld : LearningData) (plm : PersistedLearningMove) :
    (insert_or_update_candidate ld plm).2
      = (range_candidate (equal_range ld.HT plm.key) plm.learningMove).2 := by
  unfold insert_or_update_candidate range_candidate HT_deref
  dsimp only
  generalize find_if (fun p => p.move == plm.learningMove.move) (equal_range ld.HT plm.key) = itr
  cases itr with
  | none => rfl
  | some i =>
    dsimp only
    split <;> rfl

theorem insert_or_update_candidate_range (ld : LearningData) (plm : PersistedLearningMove) :
    equal_range (insert_or_update_candidate ld plm).1.HT plm.key
      = (range_candidate (equal_range ld.HT plm.key) plm.learningMove).1 := by
  unfold insert_or_update_candidate range_candidate HT_deref
  dsimp only
  generalize find_if (fun p => p.move == plm.learningMove.move) (equal_range ld.HT plm.key) = itr
  cases itr with
  | none => exact equal_range_HT_insert_same _ _ _
  | some i =>
    dsimp only
    split
    · exact equal_range_HT_write_same _ _ _ _
    · rfl

theorem insert_or_update_candidate_other (ld : LearningData) (plm : PersistedLearningMove)
    (other : Key) (hne : other ≠ plm.key) :
    equal_range (insert_or_update_candidate ld plm).1.HT other = equal_range ld.HT other := by
  unfold insert_or_update_candidate
  dsimp only
  generalize find_if (fun p => p.move == plm.learningMove.move) (equal_range ld.HT plm.key) = itr
  cases itr with
  | none => exact equal_range_HT_insert_other _ _ _ _ hne
  | some i =>
    dsimp only
    split
    · exact equal_range_HT_write_other _ _ _ _ _ hne
    · rfl

theorem insert_or_update_promote_range (ld : LearningData) (key : Key) (qLearning : Bool)
    (c : Option Nat) :
    equal_range (insert_or_update_promote ld key qLearning c).HT key
      = range_promote (equal_range ld.HT key) qLearning c := by
  cases c with
  | none => rfl
  | some c =>
    unfold insert_or_update_promote range_promote HT_deref
    dsimp only
    generalize (if c ≠ 0 then _ else false : Bool) = newBestMove
    cases newBestMove with
    | false => rfl
    | true =>
      show equal_range (HT_write (HT_write ld.HT key c _) key 0 _) key = _
      rw [equal_range_HT_write_same, equal_range_HT_write_same]
      rfl

theorem insert_or_update_promote_other (ld : LearningData) (key : Key) (qLearning : Bool)
    (c : Option Nat) (other : Key) (hne : other ≠ key) :
    equal_range (insert_or_update_promote ld key qLearning c).HT other
      = equal_range ld.HT other := by
  cases c with
  | none => rfl
  | some c =>
    unfold insert_or_update_promote
    dsimp only
    generalize (if c ≠ 0 then _ else false : Bool) = newBestMove
    cases newBestMove with
    | false => rfl
    | true =>
      show equal_range (HT_write (HT_write ld.HT key c _) key 0 _) other = _
      rw [equal_range_HT_write_other _ _ _ _ _ hne, equal_range_HT_write_other _ _ _ _ _ hne]

/-- The entries of the key of the record after `insert_or_update`. -/
theorem equal_range_insert_or_update_same (ld : LearningData) (plm : PersistedLearningMove)
    (qLearning : Bool) :
    equal_range (insert_or_update ld plm qLearning).HT plm.key
      = range_merge (equal_range ld.HT plm.key) plm.learningMove qLearning := by
  unfold insert_or_update range_merge
  dsimp only
  split
  · rename_i hR
    rw [equal_range_HT_insert_same, List.isEmpty_iff.mp hR]
    rfl
  · rw [insert_or_update_promote_range, insert_or_update_candidate_range,
      insert_or_update_candidate_snd]

/-- The entries of every other key are untouched by `insert_or_update`. -/
theorem equal_range_insert_or_update_other (ld : LearningData) (plm : PersistedLearningMove)
    (qLearning : Bool) (other : Key) (hne : other ≠ plm.key) :
    equal_range (insert_or_update ld plm qLearning).HT other = equal_range ld.HT other := by
  unfold insert_or_update
  dsimp only
  split
  · exact equal_range_HT_insert_other _ _ _ _ hne
  · rw [insert_or_update_promote_other _ _ _ _ _ hne,
      insert_or_update_candidate_other _ _ _ hne]

/-! ## Lemmas on ranges -/

theorem lex_le_refl (a : LearningMove) : lex_le a a := by
  unfold lex_le; omega

theorem lex_le_trans {a b c : LearningMove} (h1 : lex_le a b) (h2 : lex_le b c) :
    lex_le a c := by
  unfold lex_le at *; omega

theorem lex_le_total (a b : LearningMove) : lex_le a b ∨ lex_le b a := by
  unfold lex_le; omega

theorem lex_le_of_not {a b : LearningMove} (h : ¬ lex_le a b) : lex_le b a := by
  unfold lex_le at *; omega

theorem find_if_eq_none (p : LearningMove → Bool) (R : List LearningMove) :
    find_if p R = none ↔ ∀ e ∈ R, p e = false := by
  induction R with
  | nil => simp [find_if]
  | cons x t ih =>
    unfold find_if
    by_cases hx : p x = true
    · simp [hx]
    · simp [hx, ih]

theorem find_if_some_lt (p : LearningMove → Bool) (R : List LearningMove) (i : Nat)
    (h : find_if p R = some i) : i < R.length := by
  induction R generalizing i with
  | nil => simp [find_if] at h
  | cons x t ih =>
    unfold find_if at h
    by_cases hx : p x = true
    · simp [hx] at h
      simp [← h]
    · simp only [hx, Bool.false_eq_true, if_false, Option.map_eq_some'] at h
      obtain ⟨j, hj, rfl⟩ := h
      simpa using ih j hj

theorem find_if_some_pred (p : LearningMove → Bool) (R : List LearningMove) (i : Nat)
    (d : LearningMove) (h : find_if p R = some i) : p (R.getD i d) = true := by
  induction R generalizing i with
  | nil => simp [find_if] at h
  | cons x t ih =>
    unfold find_if at h
    by_cases hx : p x = true
    · simp [hx] at h
      simpa [← h] using hx
    · simp only [hx, Bool.false_eq_true, if_false, Option.map_eq_some'] at h
      obtain ⟨j, hj, rfl⟩ := h
      simpa using ih j hj

theorem find_if_set (p : LearningMove → Bool) (R : List LearningMove) (i : Nat)
    (c : LearningMove) (h : find_if p R = some i) (hc : p c = true) :
    find_if p (R.set i c) = some i := by
  induction R generalizing i with
  | nil => simp [find_if] at h
  | cons x t ih =>
    unfold find_if at h
    by_cases hx : p x = true
    · simp [hx] at h
      subst h
      simp [find_if, hc]
    · simp only [hx, Bool.false_eq_true, if_false, Option.map_eq_some'] at h
      obtain ⟨j, hj, rfl⟩ := h
      simp [find_if, hx, ih j hj]

theorem getD_mem_of_lt (R : List LearningMove) (i : Nat) (d : LearningMove)
    (h : i < R.length) : R.getD i d ∈ R := by
  rw [List.getD_eq_getElem _ _ h]
  exact List.getElem_mem h

theorem set_swap_perm (t : List LearningMove) (j : Nat) (b d : LearningMove)
    (h : j < t.length) : List.Perm (t.getD j d :: t.set j b) (b :: t) := by
  induction t generalizing j with
  | nil => simp at h
  | cons x t ih =>
    cases j with
    | zero => simpa using List.Perm.swap b x t
    | succ k =>
      have hk : k < t.length := by simpa using h
      have h1 := ih k hk
      simp only [List.getD_cons_succ, List.set_cons_succ]
      exact ((List.Perm.swap x (t.getD k d) (t.set k b)).trans (h1.cons x)).trans
        (List.Perm.swap b x t)

theorem range_promote_perm (R : List LearningMove) (q : Bool) (c : Option Nat)
    (hc : ∀ j, c = some j → j < R.length) : List.Perm (range_promote R q c) R := by
  cases c with
  | none => exact List.Perm.refl _
  | some j =>
    unfold range_promote
    dsimp only
    generalize hnb : (if j ≠ 0 then _ else false : Bool) = newBestMove
    cases newBestMove with
    | false => exact List.Perm.refl _
    | true =>
      have hj : j ≠ 0 := by
        intro h0
        simp [h0] at hnb
      simp only [if_true]
      cases R with
      | nil => simp
      | cons b t =>
        obtain ⟨k, rfl⟩ := Nat.exists_eq_succ_of_ne_zero hj
        have hk : k < t.length := by simpa using hc (k + 1) rfl
        simpa using set_swap_perm t k b default hk

theorem range_candidate_valid (R : List LearningMove) (c : LearningMove) (j : Nat)
    (h : (range_candidate R c).2 = some j) :
    j < (range_candidate R c).1.length ∧ (range_candidate R c).1.getD j default = c := by
  unfold range_candidate at h ⊢
  cases hf : find_if (fun p => p.move == c.move) R with
  | none =>
    simp only [hf] at h ⊢
    simp only [Option.some.injEq] at h
    subst h
    simp [List.getD_eq_getElem?_getD]
  | some i =>
    simp only [hf] at h ⊢
    have hi := find_if_some_lt _ _ _ hf
    split at h
    · rename_i hb
      simp only [Option.some.injEq] at h
      subst h
      rw [if_pos hb]
      simp [hi, List.getD_eq_getElem?_getD]
    · simp at h

theorem range_merge_perm (R : List LearningMove) (c : LearningMove) (q : Bool) :
    List.Perm (range_merge R c q) (range_candidate R c).1 := by
  unfold range_merge
  split
  · rename_i hR
    rw [List.isEmpty_iff.mp hR]
    simp [range_candidate, find_if]
  · exact range_promote_perm _ _ _ (fun j hj => (range_candidate_valid R c j hj).1)

theorem map_move_set (R : List LearningMove) (i : Nat) (c d : LearningMove)
    (hm : (R.getD i d).move = c.move) :
    (R.set i c).map (fun e => e.move) = R.map (fun e => e.move) := by
  induction R generalizing i with
  | nil => rfl
  | cons x t ih =>
    cases i with
    | zero =>
      simp only [List.getD_cons_zero] at hm
      simp [hm]
    | succ k =>
      simp only [List.getD_cons_succ] at hm
      simp [ih k hm]

theorem nodup_move_inj {L : List LearningMove} (hnd : (L.map (fun e => e.move)).Nodup)
    {a b : LearningMove} (ha : a ∈ L) (hb : b ∈ L) (hm : a.move = b.move) : a = b :=
  List.inj_on_of_nodup_map hnd ha hb hm

theorem RangeInv_nil : RangeInv [] [] := by
  simp [RangeInv]

theorem RangeInv_perm {R S recs : List LearningMove} (h : RangeInv R recs)
    (hp : List.Perm S R) : RangeInv S recs := by
  obtain ⟨hnd, hmax, hcov⟩ := h
  refine ⟨?_, ?_, ?_⟩
  · exact ((hp.map (fun e => e.move)).nodup_iff).mpr hnd
  · intro e he
    exact hmax e (hp.mem_iff.mp he)
  · intro r hr
    exact ((hp.map (fun e => e.move)).mem_iff).mpr (hcov r hr)

theorem RangeInv_candidate {R recs : List LearningMove} (c : LearningMove)
    (h : RangeInv R recs) : RangeInv (range_candidate R c).1 (recs ++ [c]) := by
  obtain ⟨hnd, hmax, hcov⟩ := h
  unfold range_candidate
  cases hf : find_if (fun p => p.move == c.move) R with
  | none =>
    have hno : ∀ e ∈ R, e.move ≠ c.move := by
      intro e he
      have := (find_if_eq_none _ _).mp hf e he
      simpa using this
    have hcR : c.move ∉ R.map (fun e => e.move) := by
      intro hmem
      obtain ⟨e, he, hem⟩ := List.mem_map.mp hmem
      exact hno e he hem
    dsimp only
    refine ⟨?_, ?_, ?_⟩
    · rw [List.map_append, List.nodup_append]
      refine ⟨hnd, by simp, ?_⟩
      intro m hm1 hm2
      simp only [List.map_cons, List.map_nil, List.mem_singleton] at hm2
      exact hcR (hm2 ▸ hm1)
    · intro e he
      rcases List.mem_append.mp he with heR | hec
      · refine ⟨List.mem_append_left _ (hmax e heR).1, ?_⟩
        intro r hr hrm
        rcases List.mem_append.mp hr with hrr | hrc
        · exact (hmax e heR).2 r hrr hrm
        · simp only [List.mem_singleton] at hrc
          subst hrc
          exact absurd hrm.symm (hno e heR)
      · simp only [List.mem_singleton] at hec
        subst hec
        refine ⟨by simp, ?_⟩
        intro r hr hrm
        rcases List.mem_append.mp hr with hrr | hrc
        · exact absurd (hrm ▸ hcov r hrr) hcR
        · simp only [List.mem_singleton] at hrc
          subst hrc
          exact lex_le_refl _
    · intro r hr
      rw [List.map_append]
      rcases List.mem_append.mp hr with hrr | hrc
      · exact List.mem_append_left _ (hcov r hrr)
      · simp only [List.mem_singleton] at hrc
        subst hrc
        simp
  | some i =>
    have hi := find_if_some_lt _ _ _ hf
    have hp : (R.getD i default).move = c.move := by
      simpa using find_if_some_pred _ _ _ default hf
    have he0 : R.getD i default ∈ R := getD_mem_of_lt R i default hi
    have hcR : c.move ∈ R.map (fun e => e.move) :=
      List.mem_map.mpr ⟨_, he0, hp⟩
    dsimp only
    split
    · rename_i hb
      dsimp only
      have hmap := map_move_set R i c default hp
      have hndS : ((R.set i c).map (fun e => e.move)).Nodup := by rw [hmap]; exact hnd
      have hcS : c ∈ R.set i c := List.mem_set _ _ hi _
      have hcmax : ∀ r ∈ recs ++ [c], r.move = c.move → lex_le r c := by
        intro r hr hrm
        rcases List.mem_append.mp hr with hrr | hrc
        · have h1 := (hmax _ he0).2 r hrr (hrm.trans hp.symm)
          have h2 : lex_le (R.getD i default) c := by
            unfold lex_le; omega
          exact lex_le_trans h1 h2
        · simp only [List.mem_singleton] at hrc
          subst hrc
          exact lex_le_refl _
      refine ⟨hndS, ?_, ?_⟩
      · intro e he
        by_cases hec : e = c
        · subst hec
          exact ⟨by simp, hcmax⟩
        · have heR : e ∈ R := by
            rcases List.mem_or_eq_of_mem_set he with h1 | h1
            · exact h1
            · exact absurd h1 hec
          have hem : e.move ≠ c.move := fun hm => hec (nodup_move_inj hndS he hcS hm)
          refine ⟨List.mem_append_left _ (hmax e heR).1, ?_⟩
          intro r hr hrm
          rcases List.mem_append.mp hr with hrr | hrc
          · exact (hmax e heR).2 r hrr hrm
          · simp only [List.mem_singleton] at hrc
            subst hrc
            exact absurd hrm.symm hem
      · intro r hr
        rw [hmap]
        rcases List.mem_append.mp hr with hrr | hrc
        · exact hcov r hrr
        · simp only [List.mem_singleton] at hrc
          subst hrc
          exact hcR
    · rename_i hb
      dsimp only
      refine ⟨hnd, ?_, ?_⟩
      · intro e he
        refine ⟨List.mem_append_left _ (hmax e he).1, ?_⟩
        intro r hr hrm
        rcases List.mem_append.mp hr with hrr | hrc
        · exact (hmax e he).2 r hrr hrm
        · simp only [List.mem_singleton] at hrc
          subst hrc
          have hee : e = R.getD i default :=
            nodup_move_inj hnd he he0 (hrm.symm.trans hp.symm)
          rw [hee]
          unfold lex_le
          omega
      · intro r hr
        rcases List.mem_append.mp hr with hrr | hrc
        · exact hcov r hrr
        · simp only [List.mem_singleton] at hrc
          subst hrc
          exact hcR

theorem RangeInv_merge {R recs : List LearningMove} (c : LearningMove) (q : Bool)
    (h : RangeInv R recs) : RangeInv (range_merge R c q) (recs ++ [c]) :=
  RangeInv_perm (RangeInv_candidate c h) (range_merge_perm R c q)

/-! ## The four cases of a merge into a key that has entries -/

theorem range_merge_new_move (b : LearningMove) (t : List LearningMove) (c : LearningMove)
    (q : Bool) (hf : find_if (fun p => p.move == c.move) (b :: t) = none) :
    range_merge (b :: t) c q
      = if (if q then decide (c.score > b.score)
            else decide (b.depth < c.depth ∨ (b.depth = c.depth ∧ b.score ≤ c.score))) = true
        then c :: (t ++ [b]) else b :: (t ++ [c]) := by
  unfold range_merge range_candidate
  simp only [hf, List.isEmpty_cons, Bool.false_eq_true, if_false]
  unfold range_promote
  have h1 : ((b :: t) ++ [c]).getD (b :: t).length default = c := by
    simp [List.getD_eq_getElem?_getD]
  have h2 : ((b :: t) ++ [c]).getD 0 default = b := by simp
  have h3 : (b :: t).length ≠ 0 := by simp
  simp only [h1, h2, h3, ne_eq, not_false_eq_true, if_true]
  generalize (if q = true then _ else _ : Bool) = newBestMove
  cases newBestMove with
  | false => rfl
  | true => simp [List.set_append]

theorem range_merge_replace_first (b : LearningMove) (t : List LearningMove)
    (c : LearningMove) (q : Bool)
    (hf : find_if (fun p => p.move == c.move) (b :: t) = some 0)
    (hb : b.depth < c.depth ∨ (b.depth = c.depth ∧ b.score < c.score)) :
    range_merge (b :: t) c q = c :: t := by
  unfold range_merge range_candidate
  simp only [hf, List.isEmpty_cons, Bool.false_eq_true, if_false, List.getD_cons_zero, hb,
    if_true]
  simp [range_promote]

theorem range_merge_replace_later (b : LearningMove) (t : List LearningMove)
    (c : LearningMove) (q : Bool) (k : Nat)
    (hf : find_if (fun p => p.move == c.move) (b :: t) = some (k + 1))
    (hb : (t.getD k default).depth < c.depth
      ∨ ((t.getD k default).depth = c.depth ∧ (t.getD k default).score < c.score)) :
    range_merge (b :: t) c q
      = if (if q then decide (c.score > b.score)
            else decide (b.depth < c.depth ∨ (b.depth = c.depth ∧ b.score ≤ c.score))) = true
        then c :: t.set k b else b :: t.set k c := by
  have hk : k < t.length := by simpa using find_if_some_lt _ _ _ hf
  unfold range_merge range_candidate
  simp only [hf, List.isEmpty_cons, Bool.false_eq_true, if_false, List.getD_cons_succ, hb,
    if_true]
  unfold range_promote
  have h1 : ((b :: t).set (k + 1) c).getD (k + 1) default = c := by
    simp [List.getD_eq_getElem?_getD, hk]
  have h2 : ((b :: t).set (k + 1) c).getD 0 default = b := by simp
  simp only [h1, h2, ne_eq, Nat.add_one_ne_zero, not_false_eq_true, if_true]
  generalize (if q = true then _ else _ : Bool) = newBestMove
  cases newBestMove with
  | false => rfl
  | true => simp

theorem range_merge_keep (R : List LearningMove) (c : LearningMove) (q : Bool) (i : Nat)
    (hf : find_if (fun p => p.move == c.move) R = some i)
    (hb : ¬ ((R.getD i default).depth < c.depth
      ∨ ((R.getD i default).depth = c.depth ∧ (R.getD i default).score < c.score))) :
    range_merge R c q = R := by
  have hi := find_if_some_lt _ _ _ hf
  unfold range_merge range_candidate
  have hne : R.isEmpty = false := by
    cases R with
    | nil => simp at hi
    | cons x t => rfl
  simp only [hf, hne, Bool.false_eq_true, if_false, hb]
  rfl

/-! ## Sequences of merges, key by key -/

theorem equal_range_merge_all (ld : LearningData) (calls : List (PersistedLearningMove × Bool))
    (k : Key) :
    equal_range (merge_all ld calls).HT k
      = (calls.filter (fun c => c.1.key == k)).foldl
          (fun R c => range_merge R c.1.learningMove c.2) (equal_range ld.HT k) := by
  induction calls generalizing ld with
  | nil => rfl
  | cons c cs ih =>
    have hstep : merge_all ld (c :: cs) = merge_all (insert_or_update ld c.1 c.2) cs := rfl
    rw [hstep, ih]
    by_cases hk : c.1.key = k
    · subst hk
      simp [List.filter_cons, equal_range_insert_or_update_same]
    · have hk2 : k ≠ c.1.key := fun h => hk h.symm
      simp [List.filter_cons, hk, equal_range_insert_or_update_other _ _ _ _ hk2]

theorem merge_records_eq_merge_all (ld : LearningData) (q : Bool)
    (plms : List PersistedLearningMove) :
    merge_records ld q plms = merge_all ld (plms.map (fun p => (p, q))) := by
  unfold merge_records merge_all
  rw [List.foldl_map]

theorem RangeInv_foldl (cs : List (PersistedLearningMove × Bool)) (R recs : List LearningMove)
    (h : RangeInv R recs) :
    RangeInv (cs.foldl (fun R c => range_merge R c.1.learningMove c.2) R)
      (recs ++ cs.map (fun c => c.1.learningMove)) := by
  induction cs generalizing R recs with
  | nil => simpa using h
  | cons c cs ih =>
    have := ih _ _ (RangeInv_merge c.1.learningMove c.2 h)
    simpa using this

theorem RangeInv_merge_all (calls : List (PersistedLearningMove × Bool)) (k : Key) :
    RangeInv (equal_range (merge_all LearningData.new calls).HT k)
      ((calls.filter (fun c => c.1.key == k)).map (fun c => c.1.learningMove)) := by
  rw [equal_range_merge_all]
  have := RangeInv_foldl (calls.filter (fun c => c.1.key == k)) [] [] RangeInv_nil
  simpa [LearningData.new, equal_range] using this

theorem probe_fst (ld : LearningData) (k : Key) :
    (probe ld k).1 = (equal_range ld.HT k).length := by
  unfold probe
  dsimp only
  cases equal_range ld.HT k <;> rfl

theorem probe_snd (ld : LearningData) (k : Key) :
    (probe ld k).2 = (equal_range ld.HT k).head? := by
  unfold probe
  dsimp only
  cases equal_range ld.HT k <;> rfl

theorem probe_move_eq (ld : LearningData) (k : Key) (m : Move) :
    probe_move ld k m
      = (find_if (fun p => p.move == m) (equal_range ld.HT k)).map
          (fun i => (equal_range ld.HT k).getD i default) := by
  unfold probe_move HT_deref
  dsimp only
  cases hR : equal_range ld.HT k with
  | nil => simp [find_if]
  | cons b t =>
    simp only [List.isEmpty_cons, Bool.false_eq_true, if_false]
    cases find_if (fun p => p.move == m) (b :: t) <;> rfl

/-! ## The first entry in Standard mode -/

theorem HeadMax_merge (R : List LearningMove) (c : LearningMove) (h : HeadMax R) :
    HeadMax (range_merge R c false) := by
  cases R with
  | nil =>
    intro b hb e he
    simp [range_merge] at hb he
    subst hb; subst he
    exact lex_le_refl _
  | cons b t =>
    have hR : ∀ e ∈ b :: t, lex_le e b := h b rfl
    have ht : ∀ e ∈ t, lex_le e b := fun e he => hR e (List.mem_cons_of_mem _ he)
    cases hf : find_if (fun p => p.move == c.move) (b :: t) with
    | none =>
      rw [range_merge_new_move b t c false hf]
      simp only [Bool.false_eq_true, if_false, decide_eq_true_eq]
      split
      · rename_i hbc
        intro h0 hh e he
        simp only [List.head?_cons, Option.some.injEq] at hh
        subst hh
        simp only [List.mem_cons, List.mem_append, List.mem_singleton, List.not_mem_nil,
          or_false] at he
        rcases he with rfl | he | rfl
        · exact lex_le_refl _
        · exact lex_le_trans (ht e he) hbc
        · exact hbc
      · rename_i hbc
        intro h0 hh e he
        simp only [List.head?_cons, Option.some.injEq] at hh
        subst hh
        simp only [List.mem_cons, List.mem_append, List.mem_singleton, List.not_mem_nil,
          or_false] at he
        rcases he with rfl | he | rfl
        · exact lex_le_refl _
        · exact ht e he
        · exact lex_le_of_not hbc
    | some i =>
      by_cases hb : (((b :: t).getD i default).depth < c.depth
          ∨ (((b :: t).getD i default).depth = c.depth
              ∧ ((b :: t).getD i default).score < c.score))
      · cases i with
        | zero =>
          simp only [List.getD_cons_zero] at hb
          rw [range_merge_replace_first b t c false hf hb]
          have hbc : lex_le b c := by unfold lex_le; omega
          intro h0 hh e he
          simp only [List.head?_cons, Option.some.injEq] at hh
          subst hh
          rcases List.mem_cons.mp he with rfl | he
          · exact lex_le_refl _
          · exact lex_le_trans (ht e he) hbc
        | succ k =>
          simp only [List.getD_cons_succ] at hb
          rw [range_merge_replace_later b t c false k hf hb]
          simp only [Bool.false_eq_true, if_false, decide_eq_true_eq]
          split
          · rename_i hbc
            intro h0 hh e he
            simp only [List.head?_cons, Option.some.injEq] at hh
            subst hh
            rcases List.mem_cons.mp he with rfl | he
            · exact lex_le_refl _
            · rcases List.mem_or_eq_of_mem_set he with he | rfl
              · exact lex_le_trans (ht e he) hbc
              · exact hbc
          · rename_i hbc
            intro h0 hh e he
            simp only [List.head?_cons, Option.some.injEq] at hh
            subst hh
            rcases List.mem_cons.mp he with rfl | he
            · exact lex_le_refl _
            · rcases List.mem_or_eq_of_mem_set he with he | rfl
              · exact ht e he
              · exact lex_le_of_not hbc
      · rw [range_merge_keep (b :: t) c false i hf hb]
        exact h

theorem HeadMax_foldl (cs : List (PersistedLearningMove × Bool)) (R : List LearningMove)
    (hstd : ∀ c ∈ cs, c.2 = false) (h : HeadMax R) :
    HeadMax (cs.foldl (fun R c => range_merge R c.1.learningMove c.2) R) := by
  induction cs generalizing R with
  | nil => exact h
  | cons c cs ih =>
    have hc : c.2 = false := hstd c (List.mem_cons_self _ _)
    have hrest : ∀ x ∈ cs, x.2 = false := fun x hx => hstd x (List.mem_cons_of_mem _ hx)
    simp only [List.foldl_cons]
    apply ih _ hrest
    rw [hc]
    exact HeadMax_merge R c.1.learningMove h

/-- C1. First-slot-is-best invariant, Standard mode: after any sequence of
`insert_or_update` calls made in Standard mode on the empty index, the entry `probe`
returns as best for a key is at least, in the order depth first and score second, every
entry stored for that key. -/
theorem first_slot_is_best_standard (plms : List PersistedLearningMove) (k : Key)
    (best e : LearningMove)
    (hbest : (probe (merge_records LearningData.new false plms) k).2 = some best)
    (he : e ∈ equal_range (merge_records LearningData.new false plms).HT k) :
    lex_le e best := by
  rw [probe_snd] at hbest
  rw [merge_records_eq_merge_all, equal_range_merge_all] at hbest he
  have hinv : HeadMax (List.foldl (fun R c => range_merge R c.1.learningMove c.2)
      (equal_range LearningData.new.HT k)
      (List.filter (fun c => c.1.key == k) (List.map (fun p => (p, false)) plms))) := by
    apply HeadMax_foldl
    · intro c hc
      have hc2 := (List.mem_filter.mp hc).1
      obtain ⟨p, _, rfl⟩ := List.mem_map.mp hc2
      rfl
    · intro b hb
      simp [LearningData.new, equal_range] at hb
  exact hinv best hbest e he

/-- Witness of C1: after the records (depth 5, score 100) and (depth 8, score 1) of key 7,
the best is the depth-8 record and the depth-5 record is below it. -/
theorem first_slot_is_best_standard_witness :
    (probe (merge_records LearningData.new false
        [⟨7, ⟨5, 100, 1⟩⟩, ⟨7, ⟨8, 1, 2⟩⟩]) 7).2 = some ⟨8, 1, 2⟩
    ∧ (⟨5, 100, 1⟩ : LearningMove) ∈ equal_range (merge_records LearningData.new false
        [⟨7, ⟨5, 100, 1⟩⟩, ⟨7, ⟨8, 1, 2⟩⟩]).HT 7
    ∧ lex_le ⟨5, 100, 1⟩ ⟨8, 1, 2⟩ :=
  ⟨by decide, by decide,
    first_slot_is_best_standard [⟨7, ⟨5, 100, 1⟩⟩, ⟨7, ⟨8, 1, 2⟩⟩] 7 ⟨8, 1, 2⟩ ⟨5, 100, 1⟩
      (by decide) (by decide)⟩

/-- C2. In Self mode the first slot need not hold the greatest score: after the records
(move 11, depth 1, score 100), (move 22, depth 1, score 50) and (move 11, depth 5,
score 10) of key 7, all merged in Self mode, `probe` returns the entry of score 10 as best
while the entry of score 50 is stored for the same key. -/
theorem self_mode_best_below_other_entry :
    (probe (merge_records LearningData.new true
        [⟨7, ⟨1, 100, 11⟩⟩, ⟨7, ⟨1, 50, 22⟩⟩, ⟨7, ⟨5, 10, 11⟩⟩]) 7).2 = some ⟨5, 10, 11⟩
    ∧ (⟨1, 50, 22⟩ : LearningMove) ∈ equal_range (merge_records LearningData.new true
        [⟨7, ⟨1, 100, 11⟩⟩, ⟨7, ⟨1, 50, 22⟩⟩, ⟨7, ⟨5, 10, 11⟩⟩]).HT 7
    ∧ ¬ ((⟨1, 50, 22⟩ : LearningMove).score ≤ (⟨5, 10, 11⟩ : LearningMove).score) := by
  decide

/-! ## One merge of a new move -/

theorem range_of_probe_snd (ld : LearningData) (k : Key) (b : LearningMove)
    (hb : (probe ld k).2 = some b) : ∃ t, equal_range ld.HT k = b :: t := by
  rw [probe_snd] at hb
  cases hR : equal_range ld.HT k with
  | nil => simp [hR] at hb
  | cons x t =>
    simp only [hR, List.head?_cons, Option.some.injEq] at hb
    exact ⟨t, by rw [hb]⟩

theorem find_if_none_of_new (R : List LearningMove) (m : Move)
    (hnew : ∀ e ∈ R, e.move ≠ m) : find_if (fun p => p.move == m) R = none := by
  rw [find_if_eq_none]
  intro e he
  simpa using hnew e he

/-- C3. Standard-mode depth dominance: when the key of the record has the best entry `b`,
no entry of the key carries the move of the record, and the depth of the record exceeds
the depth of `b`, then after `insert_or_update` in Standard mode `probe` returns the
record (its move, depth and score) as best, whatever the scores. -/
theorem standard_depth_dominance (ld : LearningData) (plm : PersistedLearningMove)
    (b : LearningMove) (hb : (probe ld plm.key).2 = some b)
    (hnew : ∀ e ∈ equal_range ld.HT plm.key, e.move ≠ plm.learningMove.move)
    (hdepth : b.depth < plm.learningMove.depth) :
    (probe (insert_or_update ld plm false) plm.key).2 = some plm.learningMove := by
  obtain ⟨t, hR⟩ := range_of_probe_snd ld plm.key b hb
  have hf := find_if_none_of_new _ _ hnew
  rw [probe_snd, equal_range_insert_or_update_same, hR]
  rw [hR] at hf
  rw [range_merge_new_move b t _ false hf]
  simp [hdepth]

/-- Witness of C3: the record (depth 8, score 1) merged after (depth 5, score 100). -/
theorem standard_depth_dominance_witness :
    (probe (merge_records LearningData.new false [⟨7, ⟨5, 100, 1⟩⟩]) 7).2 = some ⟨5, 100, 1⟩
    ∧ (probe (insert_or_update (merge_records LearningData.new false [⟨7, ⟨5, 100, 1⟩⟩])
        ⟨7, ⟨8, 1, 2⟩⟩ false) 7).2 = some ⟨8, 1, 2⟩ :=
  ⟨by decide,
    standard_depth_dominance (merge_records LearningData.new false [⟨7, ⟨5, 100, 1⟩⟩])
      ⟨7, ⟨8, 1, 2⟩⟩ ⟨5, 100, 1⟩ (by decide) (by decide) (by decide)⟩

/-- C4. Standard-mode depth tie: when the key of the record has the best entry `b`, no
entry of the key carries the move of the record, the record has the depth of `b` and a
score at least the score of `b`, then after `insert_or_update` in Standard mode `probe`
returns the record as best, and `b` is still stored for the key, after the first entry. -/
theorem standard_depth_tie (ld : LearningData) (plm : PersistedLearningMove)
    (b : LearningMove) (hb : (probe ld plm.key).2 = some b)
    (hnew : ∀ e ∈ equal_range ld.HT plm.key, e.move ≠ plm.learningMove.move)
    (hdepth : plm.learningMove.depth = b.depth)
    (hscore : b.score ≤ plm.learningMove.score) :
    (probe (insert_or_update ld plm false) plm.key).2 = some plm.learningMove
    ∧ b ∈ (equal_range (insert_or_update ld plm false).HT plm.key).tail := by
  obtain ⟨t, hR⟩ := range_of_probe_snd ld plm.key b hb
  have hf := find_if_none_of_new _ _ hnew
  rw [probe_snd, equal_range_insert_or_update_same, hR]
  rw [hR] at hf
  rw [range_merge_new_move b t _ false hf]
  simp [hdepth, hscore]

/-- Witness of C4: the record (depth 5, score 10) with move 2 merged after the record
(depth 5, score 10) with move 1. -/
theorem standard_depth_tie_witness :
    (probe (merge_records LearningData.new false [⟨7, ⟨5, 10, 1⟩⟩]) 7).2 = some ⟨5, 10, 1⟩
    ∧ (probe (insert_or_update (merge_records LearningData.new false [⟨7, ⟨5, 10, 1⟩⟩])
        ⟨7, ⟨5, 10, 2⟩⟩ false) 7).2 = some ⟨5, 10, 2⟩
    ∧ (⟨5, 10, 1⟩ : LearningMove) ∈ (equal_range (insert_or_update
        (merge_records LearningData.new false [⟨7, ⟨5, 10, 1⟩⟩])
        ⟨7, ⟨5, 10, 2⟩⟩ false).HT 7).tail :=
  ⟨by decide,
    standard_depth_tie (merge_records LearningData.new false [⟨7, ⟨5, 10, 1⟩⟩])
      ⟨7, ⟨5, 10, 2⟩⟩ ⟨5, 10, 1⟩ (by decide) (by decide) (by decide) (by decide)⟩

/-- C5. Self-mode score dominance: when the key of the record has the best entry `b` and
no entry of the key carries the move of the record, then after `insert_or_update` in Self
mode `probe` returns the record as best exactly when its score exceeds the score of `b`,
and returns `b` as best otherwise, whatever the depths. -/
theorem self_score_dominance (ld : LearningData) (plm : PersistedLearningMove)
    (b : LearningMove) (hb : (probe ld plm.key).2 = some b)
    (hnew : ∀ e ∈ equal_range ld.HT plm.key, e.move ≠ plm.learningMove.move) :
    ((probe (insert_or_update ld plm true) plm.key).2 = some plm.learningMove
        ↔ plm.learningMove.score > b.score)
    ∧ (¬ plm.learningMove.score > b.score
        → (probe (insert_or_update ld plm true) plm.key).2 = some b) := by
  obtain ⟨t, hR⟩ := range_of_probe_snd ld plm.key b hb
  have hf := find_if_none_of_new _ _ hnew
  have hbm : b.move ≠ plm.learningMove.move := hnew b (by rw [hR]; exact List.mem_cons_self _ _)
  have hbc : b ≠ plm.learningMove := fun h => hbm (by rw [h])
  rw [probe_snd, equal_range_insert_or_update_same, hR]
  rw [hR] at hf
  rw [range_merge_new_move b t _ true hf]
  by_cases hs : plm.learningMove.score > b.score
  · simp [hs]
  · simp [hs, hbc]

/-- Witness of C5: the record (depth 20, score 50) merged in Self mode after the record
(depth 1, score 100) leaves the score-100 record best. -/
theorem self_score_dominance_witness :
    (probe (merge_records LearningData.new true [⟨7, ⟨1, 100, 1⟩⟩]) 7).2 = some ⟨1, 100, 1⟩
    ∧ (probe (insert_or_update (merge_records LearningData.new true [⟨7, ⟨1, 100, 1⟩⟩])
        ⟨7, ⟨20, 50, 2⟩⟩ true) 7).2 = some ⟨1, 100, 1⟩ :=
  ⟨by decide,
    (self_score_dominance (merge_records LearningData.new true [⟨7, ⟨1, 100, 1⟩⟩])
      ⟨7, ⟨20, 50, 2⟩⟩ ⟨1, 100, 1⟩ (by decide) (by decide)).2 (by decide)⟩

/-! ## What `probe` and `probe_move` return after a sequence of merges -/

/-- C6. `probe` counts distinct moves: after any sequence of `insert_or_update` calls
(each in either mode) on the empty index, for every key the count `probe` returns is the
number of distinct moves among the merged records of that key, no two entries of the key
carry the same move, and `probe` returns no best entry exactly when the count is 0. -/
theorem probe_counts_distinct_moves (calls : List (PersistedLearningMove × Bool)) (k : Key) :
    (probe (merge_all LearningData.new calls) k).1
        = ((calls.filter (fun c => c.1.key == k)).map
            (fun c => c.1.learningMove.move)).dedup.length
    ∧ ((equal_range (merge_all LearningData.new calls).HT k).map (fun e => e.move)).Nodup
    ∧ ((probe (merge_all LearningData.new calls) k).2 = none
        ↔ (probe (merge_all LearningData.new calls) k).1 = 0) := by
  obtain ⟨hnd, hmax, hcov⟩ := RangeInv_merge_all calls k
  refine ⟨?_, hnd, ?_⟩
  · rw [probe_fst]
    have hset : ((equal_range (merge_all LearningData.new calls).HT k).map
        (fun e => e.move)).toFinset
        = ((calls.filter (fun c => c.1.key == k)).map
            (fun c => c.1.learningMove.move)).toFinset := by
      ext m
      simp only [List.mem_toFinset]
      constructor
      · intro hm
        obtain ⟨e, he, rfl⟩ := List.mem_map.mp hm
        obtain ⟨c, hc, hce⟩ := List.mem_map.mp (hmax e he).1
        exact List.mem_map.mpr ⟨c, hc, by rw [hce]⟩
      · intro hm
        obtain ⟨c, hc, rfl⟩ := List.mem_map.mp hm
        exact hcov c.1.learningMove (List.mem_map.mpr ⟨c, hc, rfl⟩)
    have h1 := List.toFinset_card_of_nodup hnd
    rw [hset, List.card_toFinset] at h1
    rw [h1, List.length_map]
  · rw [probe_fst, probe_snd]
    cases equal_range (merge_all LearningData.new calls).HT k <;> simp

/-- C7. `probe_move` returns the strongest record of the exact move: after any sequence
of `insert_or_update` calls (each in either mode) on the empty index, `probe_move k m` is
`none` when no merged record has key `k` and move `m`; otherwise it is an entry of move
`m` that is one of the merged records of key `k` and is at least, in the order depth
first and score second, every merged record of key `k` and move `m`. -/
theorem probe_move_strongest (calls : List (PersistedLearningMove × Bool)) (k : Key)
    (m : Move) :
    ((∀ c ∈ calls, ¬ (c.1.key = k ∧ c.1.learningMove.move = m))
        → probe_move (merge_all LearningData.new calls) k m = none)
    ∧ ((∃ c ∈ calls, c.1.key = k ∧ c.1.learningMove.move = m)
        → ∃ e, probe_move (merge_all LearningData.new calls) k m = some e
            ∧ e.move = m
            ∧ (∃ c ∈ calls, c.1.key = k ∧ c.1.learningMove = e)
            ∧ ∀ c ∈ calls, c.1.key = k → c.1.learningMove.move = m
                → lex_le c.1.learningMove e) := by
  obtain ⟨hnd, hmax, hcov⟩ := RangeInv_merge_all calls k
  rw [probe_move_eq]
  constructor
  · intro hnone
    have hf : find_if (fun p => p.move == m)
        (equal_range (merge_all LearningData.new calls).HT k) = none := by
      apply find_if_none_of_new
      intro e he hem
      obtain ⟨c, hc, hce⟩ := List.mem_map.mp (hmax e he).1
      have hc2 := List.mem_filter.mp hc
      exact hnone c hc2.1 ⟨by simpa using hc2.2, by rw [hce]; exact hem⟩
    rw [hf]
    rfl
  · rintro ⟨c, hc, hck, hcm⟩
    have hcf : c ∈ calls.filter (fun c => c.1.key == k) :=
      List.mem_filter.mpr ⟨hc, by simpa using hck⟩
    have hmR := hcov c.1.learningMove (List.mem_map.mpr ⟨c, hcf, rfl⟩)
    cases hf : find_if (fun p => p.move == m)
        (equal_range (merge_all LearningData.new calls).HT k) with
    | none =>
      exfalso
      obtain ⟨e, he, hem⟩ := List.mem_map.mp hmR
      have := (find_if_eq_none _ _).mp hf e he
      simp only [beq_eq_false_iff_ne, ne_eq] at this
      exact this (hem.trans hcm)
    | some i =>
      have hi := find_if_some_lt _ _ _ hf
      have hp : ((equal_range (merge_all LearningData.new calls).HT k).getD i default).move
          = m := by
        simpa using find_if_some_pred _ _ _ default hf
      have he := getD_mem_of_lt _ i default hi
      refine ⟨_, rfl, hp, ?_, ?_⟩
      · obtain ⟨c2, hc2, hce⟩ := List.mem_map.mp (hmax _ he).1
        have hc3 := List.mem_filter.mp hc2
        exact ⟨c2, hc3.1, by simpa using hc3.2, hce⟩
      · intro c2 hc2 hk2 hm2
        have hc2f : c2 ∈ calls.filter (fun c => c.1.key == k) :=
          List.mem_filter.mpr ⟨hc2, by simpa using hk2⟩
        exact (hmax _ he).2 c2.1.learningMove (List.mem_map.mpr ⟨c2, hc2f, rfl⟩)
          (hm2.trans hp.symm)

/-! ## One merge of a move the key already has -/

theorem insert_or_update_promote_needPersisting (ld : LearningData) (key : Key) (q : Bool)
    (c : Option Nat) :
    (insert_or_update_promote ld key q c).needPersisting = ld.needPersisting := by
  cases c with
  | none => rfl
  | some c =>
    unfold insert_or_update_promote
    dsimp only
    generalize (if c ≠ 0 then _ else false : Bool) = newBestMove
    cases newBestMove <;> rfl

theorem range_merge_length_of_found (R : List LearningMove) (c : LearningMove) (q : Bool)
    (i : Nat) (hf : find_if (fun p => p.move == c.move) R = some i) :
    (range_merge R c q).length = R.length := by
  rw [(range_merge_perm R c q).length_eq]
  unfold range_candidate
  simp only [hf]
  split <;> simp

/-- C8. Update rule for a matching move: when `probe_move` finds the entry `e` for the key
and the move of the record, then `insert_or_update` (in either mode) gives the entry of
that move the depth and score of the record and sets `needPersisting` if the record has a
greater depth than `e`, or the same depth and a greater score; otherwise it leaves the
whole store as it was.  In both cases the number of entries of the key is unchanged. -/
theorem update_rule_matching_move (ld : LearningData) (plm : PersistedLearningMove)
    (qLearning : Bool) (e : LearningMove)
    (he : probe_move ld plm.key plm.learningMove.move = some e) :
    ((e.depth < plm.learningMove.depth
          ∨ (e.depth = plm.learningMove.depth ∧ e.score < plm.learningMove.score))
        → probe_move (insert_or_update ld plm qLearning) plm.key plm.learningMove.move
            = some plm.learningMove
          ∧ (insert_or_update ld plm qLearning).needPersisting = true)
    ∧ (¬ (e.depth < plm.learningMove.depth
          ∨ (e.depth = plm.learningMove.depth ∧ e.score < plm.learningMove.score))
        → insert_or_update ld plm qLearning = ld)
    ∧ (probe (insert_or_update ld plm qLearning) plm.key).1 = (probe ld plm.key).1 := by
  rw [probe_move_eq] at he
  cases hf : find_if (fun p => p.move == plm.learningMove.move)
      (equal_range ld.HT plm.key) with
  | none => simp [hf] at he
  | some i =>
    simp only [hf, Option.map_some', Option.some.injEq] at he
    have hi := find_if_some_lt _ _ _ hf
    have hne : (equal_range ld.HT plm.key).isEmpty = false := by
      cases hR : equal_range ld.HT plm.key with
      | nil => simp [hR] at hi
      | cons x t => rfl
    have hpc : (fun p : LearningMove => p.move == plm.learningMove.move) plm.learningMove
        = true := by simp
    refine ⟨?_, ?_, ?_⟩
    · intro hb
      constructor
      · rw [probe_move_eq, equal_range_insert_or_update_same]
        cases hR : equal_range ld.HT plm.key with
        | nil => simp [hR] at hi
        | cons b t =>
          rw [hR] at hf he hi
          cases i with
          | zero =>
            simp only [List.getD_cons_zero] at he
            subst he
            rw [range_merge_replace_first b t _ qLearning hf hb]
            simp [find_if]
          | succ k =>
            simp only [List.getD_cons_succ] at he
            subst he
            have hk : k < t.length := by simpa using hi
            rw [range_merge_replace_later b t _ qLearning k hf hb]
            generalize (if qLearning = true then _ else _ : Bool) = newBestMove
            cases newBestMove with
            | true => simp [find_if]
            | false =>
              have hset := find_if_set _ _ _ plm.learningMove hf hpc
              simp only [List.set_cons_succ] at hset
              simp only [Bool.false_eq_true, if_false]
              rw [hset]
              simp [List.getD_eq_getElem?_getD, hk]
      · unfold insert_or_update
        simp only [hne, Bool.false_eq_true, if_false]
        rw [insert_or_update_promote_needPersisting]
        unfold insert_or_update_candidate HT_deref
        simp only [hf, he, hb, if_true]
    · intro hb
      unfold insert_or_update
      simp only [hne, Bool.false_eq_true, if_false]
      unfold insert_or_update_candidate HT_deref
      simp only [hf, he, hb, if_false]
      rfl
    · rw [probe_fst, probe_fst, equal_range_insert_or_update_same]
      exact range_merge_length_of_found _ _ _ i hf

/-- Witness of C8: the record (move 1, depth 6, score 3) merged into a key that holds
(move 1, depth 5, score 100). -/
theorem update_rule_matching_move_witness :
    probe_move (merge_records LearningData.new false [⟨7, ⟨5, 100, 1⟩⟩]) 7 1
        = some ⟨5, 100, 1⟩
    ∧ probe_move (insert_or_update (merge_records LearningData.new false [⟨7, ⟨5, 100, 1⟩⟩])
        ⟨7, ⟨6, 3, 1⟩⟩ false) 7 1 = some ⟨6, 3, 1⟩ :=
  ⟨by decide,
    ((update_rule_matching_move (merge_records LearningData.new false [⟨7, ⟨5, 100, 1⟩⟩])
      ⟨7, ⟨6, 3, 1⟩⟩ false ⟨5, 100, 1⟩ (by decide)).1 (by decide)).1⟩

/-! ## Files -/

theorem fs_lookup_remove (fs : FileSystem) (p q : String) :
    fs_lookup (fs_remove fs p) q = if q = p then none else fs_lookup fs q := by
  induction fs with
  | nil => simp [fs_remove, fs_lookup]
  | cons e rest ih =>
    obtain ⟨a, f⟩ := e
    unfold fs_remove at ih ⊢
    by_cases ha : a = p
    · subst ha
      simp only [List.filter_cons, bne_self_eq_false, Bool.false_eq_true, if_false, ih]
      by_cases hq : q = a
      · simp [hq]
      · have hq2 : a ≠ q := fun h => hq h.symm
        simp [fs_lookup, hq, hq2]
    · have hap : (a != p) = true := by simp [ha]
      simp only [List.filter_cons, hap, if_true, fs_lookup, ih]
      by_cases hq : q = p
      · subst hq
        simp [ha]
      · simp [hq]

theorem fs_lookup_write (fs : FileSystem) (p q : String) (f : FileData) :
    fs_lookup (fs_write fs p f) q = if q = p then some f else fs_lookup fs q := by
  unfold fs_write
  by_cases hq : q = p
  · subst hq
    simp [fs_lookup]
  · have hq2 : p ≠ q := fun h => hq h.symm
    simp [fs_lookup, hq, hq2, fs_lookup_remove]

theorem fs_lookup_rename (fs : FileSystem) (a b q : String) (f : FileData)
    (ha : fs_lookup fs a = some f) (hab : a ≠ b) :
    fs_lookup (fs_rename fs a b) q
      = if q = b then some f else if q = a then none else fs_lookup fs q := by
  unfold fs_rename
  simp only [ha, beq_iff_eq, hab, if_false]
  rw [fs_lookup_write, fs_lookup_remove]

/-- C9. Corrupt file rejection: for a file that exists and whose length in bytes is not a
multiple of the record width, `load` returns false and leaves the whole state (the index,
both buffer lists, the `needPersisting` flag, the files) as it was. -/
theorem load_rejects_corrupt_file (env : Env) (w : World) (filename : String)
    (file : FileData) (hfile : fs_lookup w.fs filename = some file)
    (hsize : file.size % env.sizeofPLM ≠ 0) :
    load env filename w = (false, w) := by
  unfold load
  simp only [hfile]
  rw [if_pos hsize]

/-- Witness of C9: a file of 25 bytes with a record width of 24 bytes. -/
theorem load_rejects_corrupt_file_witness :
    fs_lookup corrupt_world.fs "data/experience.bin" = some corrupt_file
    ∧ corrupt_file.size % roundtrip_env.sizeofPLM ≠ 0
    ∧ load roundtrip_env "data/experience.bin" corrupt_world = (false, corrupt_world) :=
  ⟨by decide, by decide,
    load_rejects_corrupt_file roundtrip_env corrupt_world "data/experience.bin" corrupt_file
      (by decide) (by decide)⟩

/-! ## The loop of `load` -/

theorem load_loop_eq (W : Nat) (beyond : PersistedLearningMove)
    (buf : List PersistedLearningMove) (q : Bool) (hW : 0 < W) :
    ∀ (fuel i : Nat) (ld : LearningData), i < buf.length → buf.length - i ≤ fuel →
      load_loop W beyond buf (buf.length * W) q fuel i ld
        = (buf.drop i).foldl (fun s p => insert_or_update s p q) ld := by
  intro fuel
  induction fuel with
  | zero =>
    intro i ld hi hfuel
    omega
  | succ n ih =>
    intro i ld hi hfuel
    unfold load_loop
    have hget : buf.getD i beyond = buf[i] := List.getD_eq_getElem _ _ hi
    have hdrop : buf.drop i = buf[i] :: buf.drop (i + 1) := List.drop_eq_getElem_cons hi
    by_cases hnext : i + 1 < buf.length
    · have hc : (i + 1) * W < buf.length * W := Nat.mul_lt_mul_of_pos_right hnext hW
      simp only [hc, if_true, hget]
      rw [ih (i + 1) _ hnext (by omega), hdrop]
      rfl
    · have hc : ¬ (i + 1) * W < buf.length * W := by
        intro h
        exact hnext (Nat.lt_of_mul_lt_mul_right h)
      have hlast : buf.drop (i + 1) = [] := List.drop_eq_nil_of_le (by omega)
      simp only [hc, if_false, hget]
      rw [hdrop, hlast]
      rfl

/-- What `load` does with a file that holds at least one whole record and nothing else,
when the allocation and the read succeed: it returns true, records one buffer and merges
the records of the file in file order. -/
theorem load_of_valid (env : Env) (w : World) (filename : String) (file : FileData)
    (hfile : fs_lookup w.fs filename = some file)
    (hsize : file.size = file.records.length * env.sizeofPLM)
    (hrec : file.records ≠ []) (hW : 0 < env.sizeofPLM)
    (hmalloc : env.malloc file.size = true) (hread : file.readable = true) :
    load env filename w
      = (true, World.mk
          (merge_records (push_mainDataBuffer w.LD file.size)
            (decide (w.usePersistedLearning = PersistedLearningUsage.Self)) file.records)
          w.usePersistedLearning w.uniqueStr w.fs) := by
  unfold load
  have hmod : file.size % env.sizeofPLM = 0 := by rw [hsize]; exact Nat.mul_mod_left _ _
  have hlen : 0 < file.records.length := List.length_pos.mpr hrec
  simp only [hfile, hmod, ne_eq, not_true_eq_false, if_false, hmalloc, hread,
    Bool.not_true, Bool.false_eq_true]
  have hloop := load_loop_eq env.sizeofPLM env.beyond file.records
    (decide (w.usePersistedLearning = PersistedLearningUsage.Self)) hW
    (file.size + 1) 0 (push_mainDataBuffer w.LD file.size)
    hlen (by
      have h1 : file.records.length ≤ file.records.length * env.sizeofPLM :=
        Nat.le_mul_of_pos_right _ hW
      omega)
  rw [← hsize] at hloop
  rw [hloop]
  rfl

theorem load_of_absent (env : Env) (w : World) (filename : String)
    (hfile : fs_lookup w.fs filename = none) : load env filename w = (false, w) := by
  unfold load
  simp only [hfile]

/-! ## Records of distinct keys -/

theorem equal_range_eq_nil_iff (HT : HashTable) (k : Key) :
    equal_range HT k = [] ↔ ∀ kvp ∈ HT, kvp.1 ≠ k := by
  induction HT with
  | nil => simp [equal_range]
  | cons kvp rest ih =>
    rw [equal_range_cons]
    by_cases h : kvp.1 = k
    · simp [h]
    · simp [h, ih]

theorem HT_insert_of_absent (HT : HashTable) (k : Key) (lm : LearningMove)
    (h : equal_range HT k = []) : HT_insert HT k lm = HT ++ [(k, lm)] := by
  induction HT with
  | nil => rfl
  | cons kvp rest ih =>
    rw [equal_range_cons] at h
    by_cases hk : kvp.1 = k
    · simp [hk] at h
    · simp only [hk, if_false] at h
      unfold HT_insert
      simp [hk, ih h]

theorem equal_range_append (HT1 HT2 : HashTable) (k : Key) :
    equal_range (HT1 ++ HT2) k = equal_range HT1 k ++ equal_range HT2 k := by
  simp [equal_range]

theorem insert_or_update_of_absent (ld : LearningData) (plm : PersistedLearningMove)
    (q : Bool) (h : equal_range ld.HT plm.key = []) :
    insert_or_update ld plm q
      = LearningData.mk ld.isPaused true (ld.HT ++ [(plm.key, plm.learningMove)])
          ld.mainDataBuffers ld.newMovesDataBuffers := by
  unfold insert_or_update
  simp only [h, List.isEmpty_nil, if_true]
  rw [HT_insert_of_absent _ _ _ h]

theorem merge_records_distinct (q : Bool) (plms : List PersistedLearningMove) :
    ∀ ld : LearningData, (plms.map (fun p => p.key)).Nodup →
      (∀ p ∈ plms, equal_range ld.HT p.key = []) →
      merge_records ld q plms
        = LearningData.mk ld.isPaused (ld.needPersisting || !plms.isEmpty)
            (ld.HT ++ plms.map (fun p => (p.key, p.learningMove)))
            ld.mainDataBuffers ld.newMovesDataBuffers := by
  induction plms with
  | nil =>
    intro ld _ _
    simp [merge_records]
  | cons p rest ih =>
    intro ld hnd habs
    have hstep : merge_records ld q (p :: rest)
        = merge_records (insert_or_update ld p q) q rest := rfl
    have hp := habs p (List.mem_cons_self _ _)
    simp only [List.map_cons, List.nodup_cons] at hnd
    rw [hstep, insert_or_update_of_absent ld p q hp, ih _ hnd.2]
    · simp
    · intro p2 hp2
      dsimp only
      rw [equal_range_append, habs p2 (List.mem_cons_of_mem _ hp2)]
      have hne : p.key ≠ p2.key := by
        intro heq
        exact hnd.1 (List.mem_map.mpr ⟨p2, hp2, heq.symm⟩)
      simp [equal_range, hne]

theorem persist_file_of_records (env : Env) (plms : List PersistedLearningMove) :
    persist_file env (plms.map (fun p => (p.key, p.learningMove)))
      = FileData.mk (plms.length * env.sizeofPLM) plms true := by
  unfold persist_file
  simp [Function.comp_def]

theorem equal_range_of_distinct (plms : List PersistedLearningMove)
    (hkeys : (plms.map (fun p => p.key)).Nodup) (p : PersistedLearningMove) (hp : p ∈ plms) :
    equal_range (plms.map (fun x => (x.key, x.learningMove))) p.key = [p.learningMove] := by
  induction plms with
  | nil => simp at hp
  | cons x t ih =>
    simp only [List.map_cons, List.nodup_cons] at hkeys
    rw [List.map_cons, equal_range_cons]
    rcases List.mem_cons.mp hp with rfl | hpt
    · have hnil : equal_range (t.map (fun x => (x.key, x.learningMove))) p.key = [] := by
        rw [equal_range_eq_nil_iff]
        intro kvp hkvp heq
        obtain ⟨y, hy, rfl⟩ := List.mem_map.mp hkvp
        exact hkeys.1 (List.mem_map.mpr ⟨y, hy, heq⟩)
      simp [hnil]
    · have hne : x.key ≠ p.key := by
        intro heq
        exact hkeys.1 (List.mem_map.mpr ⟨p, hpt, heq.symm⟩)
      simp only [hne, if_false]
      exact ih hkeys.2 hpt

theorem probe_of_HT_eq (ld1 ld2 : LearningData) (h : ld1.HT = ld2.HT) (k : Key) :
    probe ld1 k = probe ld2 k := by
  unfold probe
  rw [h]

/-! ## Persist, then recover -/

theorem slave_name_zero : "experience" ++ toString (0 : Nat) ++ ".bin" = "experience0.bin" := by
  decide

/-- The files after a `persist` that writes, seen through `fs_lookup`: the canonical path
holds the new file, the temporary path holds nothing, every other path is as before. -/
theorem fs_lookup_after_persist (fs0 : FileSystem) (canon temp : String) (F : FileData)
    (hne : temp ≠ canon) (path : String) :
    fs_lookup (fs_rename (fs_remove (fs_write fs0 temp F) canon) temp canon) path
      = if path = canon then some F else if path = temp then none else fs_lookup fs0 path := by
  have ha : fs_lookup (fs_remove (fs_write fs0 temp F) canon) temp = some F := by
    rw [fs_lookup_remove, fs_lookup_write]
    simp [hne]
  rw [fs_lookup_rename _ _ _ _ F ha hne, fs_lookup_remove, fs_lookup_write]
  by_cases h1 : path = canon
  · simp [h1]
  · by_cases h2 : path = temp
    · simp [h2]
    · simp [h1, h2]

/-- What `init` does when only the canonical file is found: the state `load` leaves for
that file, with the flag `needPersisting` cleared. -/
theorem init_of_canonical_only (env : Env) (fuel : Nat) (w : World) (flag : Bool)
    (w2 : World)
    (hload : load env (env.map_path "experience.bin")
      (World.mk (clear w.LD) w.usePersistedLearning w.uniqueStr w.fs) = (flag, w2))
    (hraw : fs_lookup w2.fs "experience_new.bin" = none)
    (hslave : fs_lookup w2.fs (env.map_path "experience0.bin") = none) :
    init env (fuel + 1) w
      = some (World.mk (clear_needPersisting w2.LD) w2.usePersistedLearning w2.uniqueStr
          w2.fs) := by
  unfold init
  simp only [hload, load_of_absent env w2 "experience_new.bin" hraw, Bool.false_eq_true,
    if_false]
  unfold init_slaves
  simp only [slave_name_zero, load_of_absent env w2 _ hslave, Bool.not_false, if_true,
    List.length_nil, ne_eq, not_true_eq_false, if_false, List.foldl_nil]

/-- C10, as amended. Persist/reload round trip: for an index built from at least one
record, the records having distinct keys, with the naming not concurrent, a positive
record width, an allocation that succeeds, the mapped names `experience.bin` and
`experience_new.bin` being different paths, no file at the name `experience_new.bin` as
`init` opens it nor at the mapped name `experience0.bin`, and neither of these two being
the canonical path: `persist` followed by `init` returns, and leaves an index whose
entries are those before `persist`, so that `probe` returns the same count and the same
best entry for every key, and `(0, none)` for every key that is not a key of a record. -/
theorem persist_init_round_trip (env : Env) (q : Bool) (mode : PersistedLearningUsage)
    (uniqueStr : String) (fs0 : FileSystem) (plms : List PersistedLearningMove) (fuel : Nat)
    (hrec : plms ≠ [])
    (hkeys : (plms.map (fun p => p.key)).Nodup)
    (hconc : env.concurrentExperience = false)
    (hW : 0 < env.sizeofPLM)
    (hmalloc : env.malloc (plms.length * env.sizeofPLM) = true)
    (htemp : env.map_path "experience_new.bin" ≠ env.map_path "experience.bin")
    (hraw1 : "experience_new.bin" ≠ env.map_path "experience.bin")
    (hraw2 : fs_lookup fs0 "experience_new.bin" = none)
    (hslave1 : env.map_path "experience0.bin" ≠ env.map_path "experience.bin")
    (hslave2 : fs_lookup fs0 (env.map_path "experience0.bin") = none) :
    ∃ w2 : World,
      init env (fuel + 1)
          (persist env (World.mk (merge_records LearningData.new q plms) mode uniqueStr fs0))
        = some w2
      ∧ w2.LD.HT = (merge_records LearningData.new q plms).HT
      ∧ (∀ k, probe w2.LD k = probe (merge_records LearningData.new q plms) k)
      ∧ (∀ k, k ∉ plms.map (fun p => p.key) → probe w2.LD k = (0, none))
      ∧ (∀ p ∈ plms, probe w2.LD p.key = (1, some p.learningMove)) := by
  have habs : ∀ p ∈ plms, equal_range ([] : HashTable) p.key = [] := fun _ _ => rfl
  have hne : plms.isEmpty = false := by
    cases plms with
    | nil => exact absurd rfl hrec
    | cons p t => rfl
  have hLD : merge_records LearningData.new q plms
      = LearningData.mk false true (plms.map (fun p => (p.key, p.learningMove))) [] [] := by
    rw [merge_records_distinct q plms LearningData.new hkeys habs]
    simp [LearningData.new, hne]
  have hHne : (plms.map (fun p => (p.key, p.learningMove))).isEmpty = false := by
    cases plms with
    | nil => exact absurd rfl hrec
    | cons p t => rfl
  have hpersist : persist env (World.mk (merge_records LearningData.new q plms) mode
      uniqueStr fs0)
      = World.mk (LearningData.mk false false (plms.map (fun p => (p.key, p.learningMove)))
          [] []) mode uniqueStr
          (fs_rename (fs_remove (fs_write fs0 (env.map_path "experience_new.bin")
            (FileData.mk (plms.length * env.sizeofPLM) plms true))
            (env.map_path "experience.bin"))
            (env.map_path "experience_new.bin") (env.map_path "experience.bin")) := by
    rw [hLD]
    unfold persist persist_filenames
    simp only [hHne, hconc, Bool.not_true, Bool.or_false, Bool.false_eq_true, if_false,
      persist_file_of_records]
  have hload := load_of_valid env
    (World.mk (clear (LearningData.mk false false
        (plms.map (fun p => (p.key, p.learningMove))) [] [])) mode uniqueStr
      (fs_rename (fs_remove (fs_write fs0 (env.map_path "experience_new.bin")
        (FileData.mk (plms.length * env.sizeofPLM) plms true))
        (env.map_path "experience.bin"))
        (env.map_path "experience_new.bin") (env.map_path "experience.bin")))
    (env.map_path "experience.bin") (FileData.mk (plms.length * env.sizeofPLM) plms true)
    (by rw [fs_lookup_after_persist _ _ _ _ htemp]; simp) rfl hrec hW hmalloc rfl
  have hmerge : merge_records (push_mainDataBuffer (clear (LearningData.mk false false
      (plms.map (fun p => (p.key, p.learningMove))) [] [])) (plms.length * env.sizeofPLM))
      (decide (mode = PersistedLearningUsage.Self)) plms
      = LearningData.mk false true (plms.map (fun p => (p.key, p.learningMove)))
          [plms.length * env.sizeofPLM] [] := by
    rw [merge_records_distinct _ plms (push_mainDataBuffer (clear (LearningData.mk false false
      (plms.map (fun p => (p.key, p.learningMove))) [] [])) (plms.length * env.sizeofPLM))
      hkeys (fun _ _ => rfl)]
    simp [push_mainDataBuffer, clear, hne]
  dsimp only at hload
  rw [hmerge] at hload
  have hinit := init_of_canonical_only env fuel
    (World.mk (LearningData.mk false false (plms.map (fun p => (p.key, p.learningMove)))
        [] []) mode uniqueStr
      (fs_rename (fs_remove (fs_write fs0 (env.map_path "experience_new.bin")
        (FileData.mk (plms.length * env.sizeofPLM) plms true))
        (env.map_path "experience.bin"))
        (env.map_path "experience_new.bin") (env.map_path "experience.bin")))
    true _ hload
    (by
      show fs_lookup (fs_rename _ _ _) _ = none
      rw [fs_lookup_after_persist _ _ _ _ htemp]
      simp only [hraw1, if_false, hraw2]
      split <;> rfl)
    (by
      show fs_lookup (fs_rename _ _ _) _ = none
      rw [fs_lookup_after_persist _ _ _ _ htemp]
      simp only [hslave1, if_false, hslave2]
      split <;> rfl)
  rw [hpersist]
  refine ⟨_, hinit, ?_, ?_, ?_, ?_⟩
  · rw [hLD]
    rfl
  · intro k
    apply probe_of_HT_eq
    rw [hLD]
    rfl
  · intro k hk
    have hR : equal_range (plms.map (fun p => (p.key, p.learningMove))) k = [] := by
      rw [equal_range_eq_nil_iff]
      intro kvp hkvp heq
      obtain ⟨p, hp, rfl⟩ := List.mem_map.mp hkvp
      exact hk (List.mem_map.mpr ⟨p, hp, heq⟩)
    unfold probe
    dsimp only [clear_needPersisting]
    rw [hR]
  · intro p hp
    unfold probe
    dsimp only [clear_needPersisting]
    rw [equal_range_of_distinct plms hkeys p hp]
    rfl

/-- Witness of C10 as amended: the index built from the records of keys 7 and 8, an empty
data directory; after `persist` and `init` the key 7 has its one entry as best. -/
theorem persist_init_round_trip_witness :
    (([⟨7, ⟨1, 100, 11⟩⟩, ⟨8, ⟨1, 50, 22⟩⟩] : List PersistedLearningMove).map
        (fun p => p.key)).Nodup
    ∧ fs_lookup [] "experience_new.bin" = none
    ∧ fs_lookup [] (roundtrip_env.map_path "experience0.bin") = none
    ∧ ∃ w2 : World,
        init roundtrip_env 1 (persist roundtrip_env
          (World.mk (merge_records LearningData.new false
            [⟨7, ⟨1, 100, 11⟩⟩, ⟨8, ⟨1, 50, 22⟩⟩]) PersistedLearningUsage.Standard "" []))
          = some w2
        ∧ probe w2.LD 7 = (1, some ⟨1, 100, 11⟩) := by
  refine ⟨by decide, by decide, by decide, ?_⟩
  obtain ⟨w2, h1, _, _, _, h5⟩ := persist_init_round_trip roundtrip_env false
    PersistedLearningUsage.Standard "" [] [⟨7, ⟨1, 100, 11⟩⟩, ⟨8, ⟨1, 50, 22⟩⟩] 0
    (by decide) (by decide) (by decide) (by decide) (by decide) (by decide) (by decide)
    (by decide) (by decide) (by decide)
  exact ⟨w2, h1, h5 ⟨7, ⟨1, 100, 11⟩⟩ (by decide)⟩

/-- Counterexample to C10 as stated: the index built from no record, with the naming not
concurrent and a data directory that holds no in-progress file and no slave file but an
`experience.bin` with a record of key 7.  `persist` writes nothing, `init` loads the file,
and `probe` then returns a count of 1 for the key 7, which is not a key of the index that
was persisted. -/
theorem persist_init_round_trip_counterexample :
    roundtrip_world.LD = merge_records LearningData.new false []
    ∧ probe roundtrip_world.LD 7 = (0, none)
    ∧ roundtrip_env.concurrentExperience = false
    ∧ fs_lookup roundtrip_world.fs (roundtrip_env.map_path "experience_new.bin") = none
    ∧ fs_lookup roundtrip_world.fs "experience_new.bin" = none
    ∧ fs_lookup roundtrip_world.fs (roundtrip_env.map_path "experience0.bin") = none
    ∧ (init roundtrip_env 1 (persist roundtrip_env roundtrip_world)).map
        (fun w => probe w.LD 7) = some (1, some ⟨1, 100, 11⟩)
    ∧ (init roundtrip_env 1 (persist roundtrip_env roundtrip_world)).map
        (fun w => probe w.LD 7) ≠ some (0, none) := by
  decide

/-! ## Persist twice -/

theorem persist_of_guard (env : Env) (w : World)
    (h : (w.LD.HT.isEmpty || !w.LD.needPersisting) = true) : persist env w = w := by
  unfold persist
  rw [if_pos h]

theorem persist_needPersisting_of_write (env : Env) (w : World)
    (h : ¬ (w.LD.HT.isEmpty || !w.LD.needPersisting) = true) :
    (persist env w).LD.needPersisting = false := by
  unfold persist
  rw [if_neg h]

/-- C11. Idempotent persist: for every state, a second `persist` right after a first one
changes nothing, so the files and the store after the second call are those after the
first; `persist` changes nothing when the index is empty or `needPersisting` is false; and
a `persist` that writes (index not empty, `needPersisting` true) leaves `needPersisting`
false. -/
theorem persist_idempotent (env : Env) (w : World) :
    persist env (persist env w) = persist env w
    ∧ (w.LD.HT = [] ∨ w.LD.needPersisting = false → persist env w = w)
    ∧ (w.LD.HT ≠ [] ∧ w.LD.needPersisting = true
        → (persist env w).LD.needPersisting = false) := by
  refine ⟨?_, ?_, ?_⟩
  · by_cases h : (w.LD.HT.isEmpty || !w.LD.needPersisting) = true
    · rw [persist_of_guard env w h, persist_of_guard env w h]
    · apply persist_of_guard
      rw [persist_needPersisting_of_write env w h]
      simp
  · intro h
    apply persist_of_guard
    rcases h with h | h
    · simp [h]
    · simp [h]
  · rintro ⟨h1, h2⟩
    apply persist_needPersisting_of_write
    simp [h1, h2]

/-! ## Clear -/

/-- C14. `clear` empties the store and is idempotent: after `clear`, `probe` returns
`(0, none)` for every key and `probe_move` returns `none` for every key and move, both
buffer lists are empty, and a second `clear` leaves the state the first one left. -/
theorem clear_empties_and_idempotent (ld : LearningData) :
    (∀ k, probe (clear ld) k = (0, none))
    ∧ (∀ k m, probe_move (clear ld) k m = none)
    ∧ (clear ld).mainDataBuffers = []
    ∧ (clear ld).newMovesDataBuffers = []
    ∧ clear (clear ld) = clear ld :=
  ⟨fun _ => rfl, fun _ _ => rfl, rfl, rfl, rfl⟩

/-! ## Other keys -/

/-- C20. Key locality of a merge: `insert_or_update` of a record, in either mode, leaves
what `probe` and `probe_move` return for every other key as it was. -/
theorem insert_or_update_other_keys (ld : LearningData) (plm : PersistedLearningMove)
    (qLearning : Bool) (other : Key) (hne : other ≠ plm.key) :
    probe (insert_or_update ld plm qLearning) other = probe ld other
    ∧ ∀ m, probe_move (insert_or_update ld plm qLearning) other m = probe_move ld other m := by
  have h := equal_range_insert_or_update_other ld plm qLearning other hne
  constructor
  · unfold probe
    rw [h]
  · intro m
    rw [probe_move_eq, probe_move_eq, h]

/-- Witness of C20: a record of key 8 merged into an index that holds key 7. -/
theorem insert_or_update_other_keys_witness :
    (7 : Key) ≠ (⟨8, ⟨8, 1, 2⟩⟩ : PersistedLearningMove).key
    ∧ probe (insert_or_update (merge_records LearningData.new false [⟨7, ⟨5, 100, 1⟩⟩])
        ⟨8, ⟨8, 1, 2⟩⟩ true) 7 = (1, some ⟨5, 100, 1⟩) :=
  ⟨by decide,
    (insert_or_update_other_keys (merge_records LearningData.new false [⟨7, ⟨5, 100, 1⟩⟩])
      ⟨8, ⟨8, 1, 2⟩⟩ true 7 (by decide)).1⟩

/-! ## What a merge does to the fields of the store -/

theorem insert_or_update_candidate_with (ld : LearningData) (plm : PersistedLearningMove)
    (X : List Nat) :
    insert_or_update_candidate (with_newMovesDataBuffers ld X) plm
      = (with_newMovesDataBuffers (insert_or_update_candidate ld plm).1 X,
          (insert_or_update_candidate ld plm).2) := by
  unfold insert_or_update_candidate HT_deref with_newMovesDataBuffers
  dsimp only
  generalize find_if (fun p => p.move == plm.learningMove.move) (equal_range ld.HT plm.key) = itr
  cases itr with
  | none => rfl
  | some i =>
    dsimp only
    split <;> rfl

theorem insert_or_update_promote_with (ld : LearningData) (key : Key) (q : Bool)
    (c : Option Nat) (X : List Nat) :
    insert_or_update_promote (with_newMovesDataBuffers ld X) key q c
      = with_newMovesDataBuffers (insert_or_update_promote ld key q c) X := by
  cases c with
  | none => rfl
  | some c =>
    unfold insert_or_update_promote HT_deref with_newMovesDataBuffers
    dsimp only
    generalize (if c ≠ 0 then _ else false : Bool) = newBestMove
    cases newBestMove <;> rfl

theorem insert_or_update_with (ld : LearningData) (plm : PersistedLearningMove) (q : Bool)
    (X : List Nat) :
    insert_or_update (with_newMovesDataBuffers ld X) plm q
      = with_newMovesDataBuffers (insert_or_update ld plm q) X := by
  unfold insert_or_update
  rw [insert_or_update_candidate_with, insert_or_update_promote_with]
  dsimp only
  by_cases h : (equal_range ld.HT plm.key).isEmpty = true
  · have h2 : (equal_range (with_newMovesDataBuffers ld X).HT plm.key).isEmpty = true := h
    rw [if_pos h, if_pos h2]
    rfl
  · have h2 : ¬ (equal_range (with_newMovesDataBuffers ld X).HT plm.key).isEmpty = true := h
    rw [if_neg h, if_neg h2]

theorem insert_or_update_candidate_fields (ld : LearningData) (plm : PersistedLearningMove) :
    (insert_or_update_candidate ld plm).1.isPaused = ld.isPaused
    ∧ (insert_or_update_candidate ld plm).1.mainDataBuffers = ld.mainDataBuffers
    ∧ (insert_or_update_candidate ld plm).1.newMovesDataBuffers = ld.newMovesDataBuffers
    ∧ ((insert_or_update_candidate ld plm).1.needPersisting = true
        ∨ insert_or_update_candidate ld plm = (ld, none)) := by
  unfold insert_or_update_candidate
  dsimp only
  generalize find_if (fun p => p.move == plm.learningMove.move) (equal_range ld.HT plm.key) = itr
  cases itr with
  | none => exact ⟨rfl, rfl, rfl, Or.inl rfl⟩
  | some i =>
    dsimp only
    split
    · exact ⟨rfl, rfl, rfl, Or.inl rfl⟩
    · exact ⟨rfl, rfl, rfl, Or.inr rfl⟩

theorem insert_or_update_promote_fields (ld : LearningData) (key : Key) (q : Bool)
    (c : Option Nat) :
    (insert_or_update_promote ld key q c).isPaused = ld.isPaused
    ∧ (insert_or_update_promote ld key q c).mainDataBuffers = ld.mainDataBuffers
    ∧ (insert_or_update_promote ld key q c).newMovesDataBuffers = ld.newMovesDataBuffers := by
  cases c with
  | none => exact ⟨rfl, rfl, rfl⟩
  | some c =>
    unfold insert_or_update_promote
    dsimp only
    generalize (if c ≠ 0 then _ else false : Bool) = newBestMove
    cases newBestMove <;> exact ⟨rfl, rfl, rfl⟩

/-- A merge leaves the pause flag and both buffer lists alone, and either sets
`needPersisting` or leaves the whole store as it was. -/
theorem insert_or_update_fields (ld : LearningData) (plm : PersistedLearningMove) (q : Bool) :
    (insert_or_update ld plm q).isPaused = ld.isPaused
    ∧ (insert_or_update ld plm q).mainDataBuffers = ld.mainDataBuffers
    ∧ (insert_or_update ld plm q).newMovesDataBuffers = ld.newMovesDataBuffers
    ∧ ((insert_or_update ld plm q).needPersisting = true ∨ insert_or_update ld plm q = ld) := by
  unfold insert_or_update
  dsimp only
  split
  · exact ⟨rfl, rfl, rfl, Or.inl rfl⟩
  · obtain ⟨h1, h2, h3, h4⟩ := insert_or_update_candidate_fields ld plm
    obtain ⟨g1, g2, g3⟩ := insert_or_update_promote_fields
      (insert_or_update_candidate ld plm).1 plm.key q (insert_or_update_candidate ld plm).2
    refine ⟨g1.trans h1, g2.trans h2, g3.trans h3, ?_⟩
    rcases h4 with h4 | h4
    · left
      rw [insert_or_update_promote_needPersisting]
      exact h4
    · right
      rw [h4]
      rfl

/-! ## The entry of the move of a record after its merge -/

theorem find_if_append_of_none (p : LearningMove → Bool) (R : List LearningMove)
    (c : LearningMove) (h : find_if p R = none) (hc : p c = true) :
    find_if p (R ++ [c]) = some R.length := by
  induction R with
  | nil => simp [find_if, hc]
  | cons x t ih =>
    unfold find_if at h
    by_cases hx : p x = true
    · simp [hx] at h
    · simp only [hx, Bool.false_eq_true, if_false, Option.map_eq_none'] at h
      simp [find_if, hx, ih h]

/-- After the merge of a record into the entries of its key, the search for its move
finds an entry of that move that is at least the record. -/
theorem find_if_range_merge (R : List LearningMove) (c : LearningMove) (q : Bool) :
    ∃ e, (find_if (fun p => p.move == c.move) (range_merge R c q)).map
          (fun i => (range_merge R c q).getD i default) = some e
      ∧ e.move = c.move ∧ lex_le c e := by
  have hpc : (fun p : LearningMove => p.move == c.move) c = true := by simp
  cases R with
  | nil =>
    refine ⟨c, ?_, rfl, lex_le_refl c⟩
    simp [range_merge, find_if]
  | cons b t =>
    cases hf : find_if (fun p => p.move == c.move) (b :: t) with
    | none =>
      refine ⟨c, ?_, rfl, lex_le_refl c⟩
      rw [range_merge_new_move b t c q hf]
      generalize (if q = true then _ else _ : Bool) = newBestMove
      cases newBestMove with
      | true => simp [find_if]
      | false =>
        have h2 := find_if_append_of_none _ (b :: t) c hf hpc
        simp only [Bool.false_eq_true, if_false]
        rw [show b :: (t ++ [c]) = (b :: t) ++ [c] from rfl, h2]
        simp [List.getD_eq_getElem?_getD]
    | some i =>
      have hi := find_if_some_lt _ _ _ hf
      by_cases hb : (((b :: t).getD i default).depth < c.depth
          ∨ (((b :: t).getD i default).depth = c.depth
              ∧ ((b :: t).getD i default).score < c.score))
      · refine ⟨c, ?_, rfl, lex_le_refl c⟩
        cases i with
        | zero =>
          simp only [List.getD_cons_zero] at hb
          rw [range_merge_replace_first b t c q hf hb]
          simp [find_if]
        | succ k =>
          simp only [List.getD_cons_succ] at hb
          have hk : k < t.length := by simpa using hi
          rw [range_merge_replace_later b t c q k hf hb]
          generalize (if q = true then _ else _ : Bool) = newBestMove
          cases newBestMove with
          | true => simp [find_if]
          | false =>
            have hset := find_if_set _ _ _ c hf hpc
            simp only [List.set_cons_succ] at hset
            simp only [Bool.false_eq_true, if_false]
            rw [hset]
            simp [List.getD_eq_getElem?_getD, hk]
      · rw [range_merge_keep (b :: t) c q i hf hb, hf]
        refine ⟨(b :: t).getD i default, rfl, ?_, ?_⟩
        · simpa using find_if_some_pred _ _ _ default hf
        · unfold lex_le
          omega

/-- C13. `add_new_learning` routes through the merge policy: when the allocation
succeeds, the index and the flag `needPersisting` after `add_new_learning key lm` are
those after `insert_or_update` of the record `(key, lm)` under the mode in force (the
Self rule exactly when the mode is Self), one buffer is added to the list of runtime
buffers and none to the list of bulk-load buffers, and `probe_move key lm.move` then
returns an entry of that move that is at least `lm` in depth, then score. -/
theorem add_new_learning_routes (env : Env) (w : World) (key : Key) (lm : LearningMove)
    (hmalloc : env.malloc env.sizeofPLM = true) :
    (add_new_learning env key lm w).LD.HT
        = (insert_or_update w.LD ⟨key, lm⟩
            (decide (w.usePersistedLearning = PersistedLearningUsage.Self))).HT
    ∧ (add_new_learning env key lm w).LD.needPersisting
        = (insert_or_update w.LD ⟨key, lm⟩
            (decide (w.usePersistedLearning = PersistedLearningUsage.Self))).needPersisting
    ∧ (add_new_learning env key lm w).LD.newMovesDataBuffers
        = w.LD.newMovesDataBuffers ++ [env.sizeofPLM]
    ∧ (add_new_learning env key lm w).LD.mainDataBuffers = w.LD.mainDataBuffers
    ∧ ∃ e, probe_move (add_new_learning env key lm w).LD key lm.move = some e
        ∧ e.move = lm.move ∧ lex_le lm e := by
  have hadd : (add_new_learning env key lm w).LD
      = with_newMovesDataBuffers (insert_or_update w.LD ⟨key, lm⟩
          (decide (w.usePersistedLearning = PersistedLearningUsage.Self)))
          (w.LD.newMovesDataBuffers ++ [env.sizeofPLM]) := by
    unfold add_new_learning
    simp only [hmalloc, Bool.not_true, Bool.false_eq_true, if_false]
    exact insert_or_update_with w.LD ⟨key, lm⟩ _ _
  rw [hadd]
  refine ⟨rfl, rfl, rfl, ?_, ?_⟩
  · exact (insert_or_update_fields w.LD ⟨key, lm⟩ _).2.1
  · rw [probe_move_eq]
    have hR : equal_range (with_newMovesDataBuffers (insert_or_update w.LD ⟨key, lm⟩
        (decide (w.usePersistedLearning = PersistedLearningUsage.Self)))
        (w.LD.newMovesDataBuffers ++ [env.sizeofPLM])).HT key
        = range_merge (equal_range w.LD.HT key) lm
            (decide (w.usePersistedLearning = PersistedLearningUsage.Self)) :=
      equal_range_insert_or_update_same w.LD ⟨key, lm⟩ _
    rw [hR]
    exact find_if_range_merge _ lm _

/-- Witness of C13: a new learning move for key 3 in a process whose index holds key 3. -/
theorem add_new_learning_routes_witness :
    roundtrip_env.malloc roundtrip_env.sizeofPLM = true
    ∧ (add_new_learning roundtrip_env 3 ⟨4, 1, 9⟩ dirty_world).LD.newMovesDataBuffers = [24]
    ∧ probe_move (add_new_learning roundtrip_env 3 ⟨4, 1, 9⟩ dirty_world).LD 3 9
        = some ⟨4, 1, 9⟩ :=
  ⟨by decide,
    (add_new_learning_routes roundtrip_env dirty_world 3 ⟨4, 1, 9⟩ (by decide)).2.2.1,
    by decide⟩

/-! ## The flag `needPersisting` -/

theorem load_loop_flag (W : Nat) (beyond : PersistedLearningMove)
    (buf : List PersistedLearningMove) (size : Nat) (q : Bool) :
    ∀ (fuel i : Nat) (ld : LearningData),
      (load_loop W beyond buf size q fuel i ld).needPersisting = true
        ∨ load_loop W beyond buf size q fuel i ld = ld := by
  intro fuel
  induction fuel with
  | zero =>
    intro i ld
    exact Or.inr rfl
  | succ n ih =>
    intro i ld
    unfold load_loop
    dsimp only
    have h1 := (insert_or_update_fields ld (buf.getD i beyond) q).2.2.2
    split
    · rcases ih (i + 1) (insert_or_update ld (buf.getD i beyond) q) with h2 | h2
      · exact Or.inl h2
      · rw [h2]
        exact h1
    · exact h1

theorem init_needPersisting (env : Env) (fuel : Nat) (w w2 : World)
    (h : init env fuel w = some w2) : w2.LD.needPersisting = false := by
  unfold init at h
  dsimp only at h
  split at h
  · exact absurd h (by simp)
  · simp only [Option.some.injEq] at h
    rw [← h]
    rfl

theorem load_fs (env : Env) (filename : String) (w : World) :
    (load env filename w).2.fs = w.fs := by
  unfold load
  split
  · rfl
  · dsimp only
    split
    · rfl
    · split
      · rfl
      · split <;> rfl

/-- The loop of `init` over the slave files reaches its `break` when the slave file
number `m` is missing: from the index `i` it needs at most `m - i + 1` iterations. -/
theorem init_slaves_returns (env : Env) (m : Nat) :
    ∀ (fuel i : Nat) (w : World) (slaveFiles : List String), i ≤ m → m - i < fuel →
      fs_lookup w.fs (env.map_path ("experience" ++ toString m ++ ".bin")) = none →
      ∃ r, init_slaves env fuel i w slaveFiles = some r := by
  intro fuel
  induction fuel with
  | zero =>
    intro i w slaveFiles _ hfuel _
    omega
  | succ n ih =>
    intro i w slaveFiles him hfuel habsent
    unfold init_slaves
    dsimp only
    cases hl : (load env (env.map_path ("experience" ++ toString i ++ ".bin")) w).1 with
    | false => exact ⟨_, rfl⟩
    | true =>
      have hlt : i < m := by
        rcases Nat.lt_or_eq_of_le him with h | h
        · exact h
        · exfalso
          rw [h, load_of_absent env w _ habsent] at hl
          exact absurd hl (by simp)
      simp only [Bool.not_true, Bool.false_eq_true, if_false]
      apply ih (i + 1) _ _ hlt (by omega)
      rw [load_fs]
      exact habsent

/-- The method `init` returns when some slave file is missing: with the slave file
number `m` absent, every bound above `m` on the iterations of its loop is enough. -/
theorem init_returns (env : Env) (w : World) (m fuel : Nat) (hfuel : m < fuel)
    (habsent : fs_lookup w.fs (env.map_path ("experience" ++ toString m ++ ".bin")) = none) :
    ∃ w2, init env fuel w = some w2 := by
  unfold init
  dsimp only
  obtain ⟨⟨w3, slaveFiles⟩, hres⟩ := init_slaves_returns env m fuel 0
    (load env "experience_new.bin" (load env (env.map_path "experience.bin")
      (World.mk (clear w.LD) w.usePersistedLearning w.uniqueStr w.fs)).2).2
    (if (load env "experience_new.bin" (load env (env.map_path "experience.bin")
      (World.mk (clear w.LD) w.usePersistedLearning w.uniqueStr w.fs)).2).1 = true
      then [env.map_path "experience_new.bin"] else [])
    (Nat.zero_le m) (by omega) (by rw [load_fs, load_fs]; exact habsent)
  rw [hres]
  exact ⟨_, rfl⟩

/-- C15, as amended. The flag `needPersisting` and the changes of the index: an
`insert_or_update`, an `add_new_learning` or a `load` that changes the entries of the index
leaves `needPersisting` true; `persist` does not change the entries of the index; `clear`
empties the index and leaves `needPersisting` as it was; `init` returns whenever some
slave file `experienceN.bin` is missing (a bound above `N` on the iterations of its loop
is enough), and whenever it returns it leaves `needPersisting` false. -/
theorem dirty_flag_after_changes (env : Env) (w : World) (plm : PersistedLearningMove)
    (qLearning : Bool) (key : Key) (lm : LearningMove) (filename : String) (fuel : Nat) :
    ((insert_or_update w.LD plm qLearning).HT ≠ w.LD.HT
        → (insert_or_update w.LD plm qLearning).needPersisting = true)
    ∧ ((add_new_learning env key lm w).LD.HT ≠ w.LD.HT
        → (add_new_learning env key lm w).LD.needPersisting = true)
    ∧ ((load env filename w).2.LD.HT ≠ w.LD.HT
        → (load env filename w).2.LD.needPersisting = true)
    ∧ (persist env w).LD.HT = w.LD.HT
    ∧ ((clear w.LD).HT = [] ∧ (clear w.LD).needPersisting = w.LD.needPersisting)
    ∧ (∀ w2, init env fuel w = some w2 → w2.LD.needPersisting = false)
    ∧ (∀ m : Nat,
        fs_lookup w.fs (env.map_path ("experience" ++ toString m ++ ".bin")) = none
        → ∀ bound : Nat, m < bound
          → ∃ w2, init env bound w = some w2 ∧ w2.LD.needPersisting = false) := by
  refine ⟨?_, ?_, ?_, ?_, ⟨rfl, rfl⟩, fun w2 h => init_needPersisting env fuel w w2 h,
    fun m habsent bound hbound => ?_⟩
  rotate_right
  · obtain ⟨w2, hw2⟩ := init_returns env w m bound hbound habsent
    exact ⟨w2, hw2, init_needPersisting env bound w w2 hw2⟩
  · intro hne
    rcases (insert_or_update_fields w.LD plm qLearning).2.2.2 with h | h
    · exact h
    · rw [h] at hne
      exact absurd rfl hne
  · intro hne
    unfold add_new_learning at hne ⊢
    split at hne
    · exact absurd rfl hne
    · rename_i hm
      rw [if_neg hm]
      dsimp only at hne ⊢
      rcases (insert_or_update_fields (with_newMovesDataBuffers w.LD
          (w.LD.newMovesDataBuffers ++ [env.sizeofPLM])) ⟨key, lm⟩
          (decide (w.usePersistedLearning = PersistedLearningUsage.Self))).2.2.2 with h | h
      · exact h
      · exfalso
        apply hne
        show (insert_or_update (with_newMovesDataBuffers w.LD
          (w.LD.newMovesDataBuffers ++ [env.sizeofPLM])) ⟨key, lm⟩
          (decide (w.usePersistedLearning = PersistedLearningUsage.Self))).HT = w.LD.HT
        rw [h]
        rfl
  · intro hne
    unfold load at hne ⊢
    split at hne
    · exact absurd rfl hne
    · rename_i file hfile
      simp only [hfile]
      dsimp only at hne ⊢
      split at hne
      · exact absurd rfl hne
      · split at hne
        · exact absurd rfl hne
        · split at hne
          · exact absurd rfl hne
          · rename_i h1 h2 h3
            rw [if_neg h1, if_neg h2, if_neg h3]
            rcases load_loop_flag env.sizeofPLM env.beyond file.records file.size
                (decide (w.usePersistedLearning = PersistedLearningUsage.Self))
                (file.size + 1) 0 (push_mainDataBuffer w.LD file.size) with h | h
            · exact h
            · exfalso
              apply hne
              show (load_loop env.sizeofPLM env.beyond file.records file.size
                (decide (w.usePersistedLearning = PersistedLearningUsage.Self))
                (file.size + 1) 0 (push_mainDataBuffer w.LD file.size)).HT = w.LD.HT
              rw [h]
              rfl
  · unfold persist
    split <;> rfl

/-- Witness of C15 as amended: in the recovery scenario the slave file number 1 is
missing, `init` returns with a bound of 2 and leaves `needPersisting` false, having
changed the index. -/
theorem dirty_flag_after_changes_witness :
    fs_lookup recovery_world.fs (roundtrip_env.map_path ("experience" ++ toString 1 ++ ".bin"))
        = none
    ∧ (init roundtrip_env 2 recovery_world).map (fun w => probe w.LD 4)
        = some (1, some ⟨8, 40, 14⟩)
    ∧ ∃ w2, init roundtrip_env 2 recovery_world = some w2 ∧ w2.LD.needPersisting = false :=
  ⟨by decide, by decide,
    (dirty_flag_after_changes roundtrip_env recovery_world default false 0 default ""
      0).2.2.2.2.2.2 1 (by decide) 2 (by decide)⟩

/-- Counterexample to C15 as stated: a record is merged, `persist` writes the index to
`experience.bin` and clears the flag, then `clear` empties the index; the entries of the
index have changed since the write and `needPersisting` is false. -/
theorem dirty_flag_counterexample :
    dirty_world.LD.needPersisting = true
    ∧ fs_lookup (persist roundtrip_env dirty_world).fs "data/experience.bin"
        = some { size := 24, records := [⟨3, ⟨2, 5, 9⟩⟩], readable := true }
    ∧ (persist roundtrip_env dirty_world).LD.needPersisting = false
    ∧ probe (persist roundtrip_env dirty_world).LD 3 = (1, some ⟨2, 5, 9⟩)
    ∧ probe (clear (persist roundtrip_env dirty_world).LD) 3 = (0, none)
    ∧ (clear (persist roundtrip_env dirty_world).LD).HT
        ≠ (persist roundtrip_env dirty_world).LD.HT
    ∧ (clear (persist roundtrip_env dirty_world).LD).needPersisting = false := by
  decide

/-! ## The loader on an empty file -/

/-- C17. On a file of length 0 `load` does not leave the index unchanged: the length
passes the test of line 26, the body of the do-while loop runs once before its bound is
tested, reads the record past the end of the empty buffer and merges it.  Here the bytes
past the block read as a record of key 99, and after `load` that key has one entry. -/
theorem load_empty_file_merges_record_past_buffer :
    fs_lookup empty_file_world.fs "data/experience.bin"
        = some { size := 0, records := [], readable := true }
    ∧ probe empty_file_world.LD 99 = (0, none)
    ∧ (load overrun_env "data/experience.bin" empty_file_world).1 = true
    ∧ (load overrun_env "data/experience.bin" empty_file_world).2.LD.mainDataBuffers = [0]
    ∧ probe (load overrun_env "data/experience.bin" empty_file_world).2.LD 99
        = (1, some ⟨1, 2, 3⟩)
    ∧ (load overrun_env "data/experience.bin" empty_file_world).2.LD.needPersisting = true := by
  decide

/-! ## The in-progress file in `init` -/

/-- C18. The in-progress file `init` opens is the one under the bare name
`experience_new.bin`, not the one at `map_path "experience_new.bin"`: with the path
mapping into `data/`, a file at `data/experience_new.bin` is not loaded and stays on
disk, while a file at `experience_new.bin` is loaded, is still on disk after `init`, and
the path recorded for deletion is `data/experience_new.bin`. -/
theorem init_opens_unmapped_in_progress_name :
    roundtrip_env.map_path "experience_new.bin" = "data/experience_new.bin"
    ∧ (persist_filenames roundtrip_env "").2 = "data/experience_new.bin"
    ∧ (init roundtrip_env 1 mapped_inprogress_world).map
        (fun w => (probe w.LD 1, fs_lookup w.fs "data/experience_new.bin",
          fs_lookup w.fs "data/experience.bin"))
        = some ((0, none), some inprogress_file, none)
    ∧ (init roundtrip_env 1 raw_inprogress_world).map
        (fun w => (probe w.LD 1, fs_lookup w.fs "experience_new.bin",
          fs_lookup w.fs "data/experience.bin"))
        = some ((1, some ⟨5, 10, 11⟩), some inprogress_file, some inprogress_file) := by
  decide

/-! ## Recovery -/

/-- C12. In the recovery scenario with the path mapping into `data/` (no `experience.bin`,
three records in `data/experience_new.bin`, two in `data/experience0.bin`), `init` loads
only the two records of the slave file: the in-progress file is looked for under its bare
name, is not found, and is then overwritten by the temporary file of `persist`.  After
`init` the keys 1, 2 and 3 are unknown and `data/experience.bin` holds two records. -/
theorem init_recovery_loses_in_progress_records :
    fs_lookup recovery_world.fs (roundtrip_env.map_path "experience.bin") = none
    ∧ fs_lookup recovery_world.fs (roundtrip_env.map_path "experience_new.bin")
        = some inprogress_file
    ∧ fs_lookup recovery_world.fs (roundtrip_env.map_path "experience0.bin")
        = some slave_file
    ∧ fs_lookup recovery_world.fs (roundtrip_env.map_path "experience1.bin") = none
    ∧ (init roundtrip_env 2 recovery_world).map
        (fun w => [probe w.LD 1, probe w.LD 2, probe w.LD 3, probe w.LD 4, probe w.LD 5])
        = some [(0, none), (0, none), (0, none), (1, some ⟨8, 40, 14⟩), (1, some ⟨9, 50, 15⟩)]
    ∧ (init roundtrip_env 2 recovery_world).map (fun w => w.fs)
        = some [("data/experience.bin", slave_file)] := by
  decide

/-- The same recovery scenario where the path mapping leaves names as they are: `init`
loads the five records, writes them to `experience.bin` and deletes the two other files. -/
theorem init_recovery_unmapped :
    (init unmapped_env 2 recovery_world_unmapped).map
        (fun w => [probe w.LD 1, probe w.LD 2, probe w.LD 3, probe w.LD 4, probe w.LD 5])
        = some [(1, some ⟨5, 10, 11⟩), (1, some ⟨6, 20, 12⟩), (1, some ⟨7, 30, 13⟩),
            (1, some ⟨8, 40, 14⟩), (1, some ⟨9, 50, 15⟩)]
    ∧ (init unmapped_env 2 recovery_world_unmapped).map (fun w => w.fs)
        = some [("experience.bin",
            { size := 120, records := inprogress_file.records ++ slave_file.records,
              readable := true })] := by
  decide

/-! ## Digits -/

theorem toDigitsCore_mem (b : Nat) : ∀ (fuel n : Nat) (ds : List Char) (c : Char),
    c ∈ Nat.toDigitsCore b fuel n ds → c ∈ ds ∨ ∃ k, c = Nat.digitChar (k % b) := by
  intro fuel
  induction fuel with
  | zero =>
    intro n ds c h
    simp only [Nat.toDigitsCore] at h
    exact Or.inl h
  | succ m ih =>
    intro n ds c h
    simp only [Nat.toDigitsCore] at h
    split at h
    · rcases List.mem_cons.mp h with h1 | h1
      · exact Or.inr ⟨n, h1⟩
      · exact Or.inl h1
    · rcases ih _ _ _ h with h1 | h1
      · rcases List.mem_cons.mp h1 with h2 | h2
        · exact Or.inr ⟨n, h2⟩
        · exact Or.inl h2
      · exact Or.inr h1

theorem toDigitsCore_length_le (b : Nat) : ∀ (fuel n : Nat) (ds : List Char) (k : Nat),
    0 < k → n < b ^ k → (Nat.toDigitsCore b fuel n ds).length ≤ k + ds.length := by
  intro fuel
  induction fuel with
  | zero =>
    intro n ds k hk hn
    simp only [Nat.toDigitsCore]
    omega
  | succ m ih =>
    intro n ds k hk hn
    simp only [Nat.toDigitsCore]
    split
    · simp only [List.length_cons]
      omega
    · rename_i hdiv
      obtain ⟨j, rfl⟩ := Nat.exists_eq_succ_of_ne_zero (Nat.pos_iff_ne_zero.mp hk)
      have hlt : n / b < b ^ j := by
        apply Nat.div_lt_of_lt_mul
        rw [← Nat.pow_succ']
        exact hn
      have hj : 0 < j := by
        rcases Nat.eq_zero_or_pos j with h0 | h0
        · subst h0
          simp at hlt
          exact absurd hlt hdiv
        · exact h0
      have := ih (n / b) (Nat.digitChar (n % b) :: ds) j hj hlt
      simp only [List.length_cons] at this
      omega

theorem toDigitsCore_length_ge (b : Nat) : ∀ (fuel n : Nat) (ds : List Char),
    ds.length ≤ (Nat.toDigitsCore b fuel n ds).length := by
  intro fuel
  induction fuel with
  | zero =>
    intro n ds
    simp [Nat.toDigitsCore]
  | succ m ih =>
    intro n ds
    simp only [Nat.toDigitsCore]
    split
    · simp
    · have := ih (n / b) (Nat.digitChar (n % b) :: ds)
      simp only [List.length_cons] at this
      omega

theorem toDigits_length_pos (b n : Nat) : 1 ≤ (Nat.toDigits b n).length := by
  unfold Nat.toDigits
  simp only [Nat.toDigitsCore]
  split
  · simp
  · have := toDigitsCore_length_ge b n (n / b) [Nat.digitChar (n % b)]
    simpa using this

theorem digitChar_mod_ten (k : Nat) : Nat.digitChar (k % 10) ≠ '-' ∧ Nat.digitChar (k % 10) ≠ '_' := by
  have h := Nat.mod_lt k (by decide : 10 > 0)
  generalize k % 10 = r at h
  interval_cases r <;> decide

theorem digitChar_mod_sixteen (k : Nat) : Nat.digitChar (k % 16) ∈ "0123456789abcdef".data := by
  have h := Nat.mod_lt k (by decide : 16 > 0)
  generalize k % 16 = r at h
  interval_cases r <;> decide

/-! ## The token of the concurrent naming -/

theorem hex_string_length (v : Nat) :
    1 ≤ (hex_string v).length ∧ (hex_string v).length ≤ 16 := by
  unfold hex_string
  simp only [String.length_mk]
  constructor
  · exact toDigits_length_pos 16 _
  · have hlt : v % 2 ^ 64 < 16 ^ 16 := Nat.mod_lt _ (by norm_num)
    have := toDigitsCore_length_le 16 (v % 2 ^ 64 + 1) (v % 2 ^ 64) [] 16 (by norm_num) hlt
    simpa [Nat.toDigits] using this

theorem hex_string_chars (v : Nat) (c : Char) (hc : c ∈ (hex_string v).data) :
    c ∈ "0123456789abcdef".data := by
  unfold hex_string Nat.toDigits at hc
  rcases toDigitsCore_mem 16 _ _ _ c hc with h | ⟨k, rfl⟩
  · simp at h
  · exact digitChar_mod_sixteen k

theorem hex_string_ne_empty (v : Nat) : hex_string v ≠ "" := by
  intro h
  have h1 := (hex_string_length v).1
  rw [h] at h1
  simp at h1

theorem persist_uniqueStr_of_nonempty (env : Env) (u : String) (hu : u ≠ "") :
    persist_uniqueStr env u = u := by
  unfold persist_uniqueStr
  have h : u.isEmpty = false := by
    cases hE : u.isEmpty with
    | false => rfl
    | true => exact absurd ((String.isEmpty_iff u).mp hE) hu
  simp [h]

/-- C19, as amended. The token of the concurrent naming: for every value of the
generator the token is its hexadecimal rendering, of 1 to 16 characters among
`0123456789abcdef` (the length varies with the value); a `persist` that writes in
concurrent mode in a process without token sets the token to the rendering of the value
generated; and once the process has a token every `persist` leaves it unchanged. -/
theorem unique_token_rendering (env : Env) (w : World) (v : Nat) :
    (1 ≤ (hex_string v).length ∧ (hex_string v).length ≤ 16
      ∧ ∀ c ∈ (hex_string v).data, c ∈ "0123456789abcdef".data)
    ∧ (env.concurrentExperience = true ∧ w.LD.HT ≠ [] ∧ w.LD.needPersisting = true
        ∧ w.uniqueStr = ""
        → (persist env w).uniqueStr = hex_string (env.prng env.now)
          ∧ (persist env w).uniqueStr ≠ "")
    ∧ (w.uniqueStr ≠ "" → ∀ env2 : Env, (persist env2 w).uniqueStr = w.uniqueStr) := by
  refine ⟨⟨(hex_string_length v).1, (hex_string_length v).2, hex_string_chars v⟩, ?_, ?_⟩
  · rintro ⟨hc, hHT, hflag, hu⟩
    have hguard : ¬ (w.LD.HT.isEmpty || !w.LD.needPersisting) = true := by
      simp [hHT, hflag]
    have htok : (persist env w).uniqueStr = hex_string (env.prng env.now) := by
      unfold persist
      rw [if_neg hguard]
      have hE : ("" : String).isEmpty = true := by decide
      simp [hc, hu, persist_uniqueStr, hE]
    exact ⟨htok, by rw [htok]; exact hex_string_ne_empty _⟩
  · intro hu env2
    unfold persist
    split
    · rfl
    · dsimp only
      split
      · exact persist_uniqueStr_of_nonempty env2 w.uniqueStr hu
      · rfl

/-- Counterexample to C19 as stated: the generated values 1 and 255 give the tokens `1`
and `ff`, of one and of two characters. -/
theorem unique_token_width_counterexample :
    (persist (token_env 1) dirty_world).uniqueStr = "1"
    ∧ (persist (token_env 255) dirty_world).uniqueStr = "ff"
    ∧ (persist (token_env 1) dirty_world).uniqueStr.length
        ≠ (persist (token_env 255) dirty_world).uniqueStr.length := by
  decide

/-! ## The names of the concurrent naming -/

theorem toString_chars (N : Nat) (c : Char) (hc : c ∈ (toString N).data) :
    c ≠ '-' ∧ c ≠ '_' := by
  have hd : (toString N).data = Nat.toDigits 10 N := rfl
  rw [hd] at hc
  unfold Nat.toDigits at hc
  rcases toDigitsCore_mem 10 _ _ _ c hc with h | ⟨k, rfl⟩
  · simp at h
  · exact digitChar_mod_ten k

theorem slave_name_tail (N : Nat) (rest : List Char) (c : Char) (tail : List Char)
    (h : c :: tail = (toString N).data ++ '.' :: rest) : c ≠ '-' ∧ c ≠ '_' := by
  cases hN : (toString N).data with
  | nil =>
    rw [hN] at h
    simp only [List.nil_append, List.cons.injEq] at h
    rw [h.1]
    exact ⟨by decide, by decide⟩
  | cons d ds =>
    rw [hN] at h
    simp only [List.cons_append, List.cons.injEq] at h
    rw [h.1]
    exact toString_chars N d (by rw [hN]; exact List.mem_cons_self _ _)

theorem canonical_name_ne_plain (u : String) :
    "experience-" ++ u ++ ".bin" ≠ "experience.bin"
    ∧ "experience-" ++ u ++ ".bin" ≠ "experience_new.bin"
    ∧ ∀ N : Nat, "experience-" ++ u ++ ".bin" ≠ "experience" ++ toString N ++ ".bin" := by
  refine ⟨?_, ?_, ?_⟩
  · intro h
    have h2 := congrArg String.data h
    simp only [String.data_append] at h2
    simp at h2
  · intro h
    have h2 := congrArg String.data h
    simp only [String.data_append] at h2
    simp at h2
  · intro N h
    have h2 := congrArg String.data h
    simp only [String.data_append] at h2
    simp only [List.cons_append, List.nil_append, List.cons.injEq, true_and,
      List.append_assoc] at h2
    exact (slave_name_tail N _ _ _ h2).1 rfl

theorem temporary_name_ne_plain (u : String) :
    "experience_new-" ++ u ++ ".bin" ≠ "experience.bin"
    ∧ "experience_new-" ++ u ++ ".bin" ≠ "experience_new.bin"
    ∧ ∀ N : Nat, "experience_new-" ++ u ++ ".bin" ≠ "experience" ++ toString N ++ ".bin" := by
  refine ⟨?_, ?_, ?_⟩
  · intro h
    have h2 := congrArg String.data h
    simp only [String.data_append] at h2
    simp at h2
  · intro h
    have h2 := congrArg String.data h
    simp only [String.data_append] at h2
    simp at h2
  · intro N h
    have h2 := congrArg String.data h
    simp only [String.data_append] at h2
    simp only [List.cons_append, List.nil_append, List.cons.injEq, true_and,
      List.append_assoc] at h2
    exact (slave_name_tail N _ _ _ h2).2 rfl

theorem canonical_name_ne_temporary (u1 u2 : String) :
    "experience-" ++ u1 ++ ".bin" ≠ "experience_new-" ++ u2 ++ ".bin" := by
  intro h
  have h2 := congrArg String.data h
  simp only [String.data_append] at h2
  simp at h2

theorem canonical_name_injective (u1 u2 : String)
    (h : "experience-" ++ u1 ++ ".bin" = "experience-" ++ u2 ++ ".bin") : u1 = u2 := by
  have h2 := congrArg String.data h
  simp only [String.data_append, List.append_assoc] at h2
  exact String.ext (List.append_cancel_right (List.append_cancel_left h2))

theorem temporary_name_injective (u1 u2 : String)
    (h : "experience_new-" ++ u1 ++ ".bin" = "experience_new-" ++ u2 ++ ".bin") : u1 = u2 := by
  have h2 := congrArg String.data h
  simp only [String.data_append, List.append_assoc] at h2
  exact String.ext (List.append_cancel_right (List.append_cancel_left h2))

theorem fs_lookup_rename_other (fs : FileSystem) (a b q : String) (hqa : q ≠ a)
    (hqb : q ≠ b) : fs_lookup (fs_rename fs a b) q = fs_lookup fs q := by
  unfold fs_rename
  cases fs_lookup fs a with
  | none => rfl
  | some f =>
    dsimp only
    split
    · rfl
    · rw [fs_lookup_write, fs_lookup_remove, if_neg hqb, if_neg hqa]

/-- The files `persist` does not name are as they were after `persist`. -/
theorem persist_frame (env : Env) (w : World) (path : String)
    (h1 : path ≠ (persist_names env w).1) (h2 : path ≠ (persist_names env w).2) :
    fs_lookup (persist env w).fs path = fs_lookup w.fs path := by
  unfold persist
  split
  · rfl
  · show fs_lookup (fs_rename (fs_remove (fs_write w.fs (persist_names env w).2 _)
      (persist_names env w).1) (persist_names env w).2 (persist_names env w).1) path = _
    rw [fs_lookup_rename_other _ _ _ _ h2 h1, fs_lookup_remove, if_neg h1, fs_lookup_write,
      if_neg h2]

theorem persist_names_concurrent (env : Env) (w : World)
    (hc : env.concurrentExperience = true) :
    persist_names env w
      = (env.map_path ("experience-" ++ persist_uniqueStr env w.uniqueStr ++ ".bin"),
          env.map_path ("experience_new-" ++ persist_uniqueStr env w.uniqueStr ++ ".bin")) := by
  unfold persist_names persist_filenames
  simp [hc]

theorem data_path_injective : Function.Injective (fun name : String => "data/" ++ name) := by
  intro a b h
  have h2 := congrArg String.data h
  simp only [String.data_append] at h2
  exact String.ext (List.append_cancel_left h2)

/-- The two names of the concurrent naming differ from the names of the plain naming and
from every slave name, under an injective path mapping. -/
theorem concurrent_names_ne_plain (env : Env) (w : World)
    (hc : env.concurrentExperience = true) (hinj : Function.Injective env.map_path)
    (name : String)
    (hname : name = (persist_names env w).1 ∨ name = (persist_names env w).2) :
    name ≠ env.map_path "experience.bin" ∧ name ≠ env.map_path "experience_new.bin"
    ∧ ∀ N : Nat, name ≠ env.map_path ("experience" ++ toString N ++ ".bin") := by
  rw [persist_names_concurrent env w hc] at hname
  rcases hname with rfl | rfl
  · obtain ⟨a, b, c⟩ := canonical_name_ne_plain (persist_uniqueStr env w.uniqueStr)
    exact ⟨fun h => a (hinj h), fun h => b (hinj h), fun N h => c N (hinj h)⟩
  · obtain ⟨a, b, c⟩ := temporary_name_ne_plain (persist_uniqueStr env w.uniqueStr)
    exact ⟨fun h => a (hinj h), fun h => b (hinj h), fun N h => c N (hinj h)⟩

/-- C16, as amended. Concurrent naming isolation: for two processes with the concurrent
naming and the same injective path mapping whose tokens differ, the canonical and
temporary names `persist` computes in one are different from both names it computes in
the other, so a `persist` of either process leaves the files named by the other as they
were; and all four names differ from the mapped names `experience.bin`,
`experience_new.bin` and `experienceN.bin` for every `N`. -/
theorem concurrent_names_isolated (env1 env2 : Env) (w1 w2 : World)
    (hc1 : env1.concurrentExperience = true) (hc2 : env2.concurrentExperience = true)
    (hmap : env2.map_path = env1.map_path) (hinj : Function.Injective env1.map_path)
    (htok : persist_uniqueStr env1 w1.uniqueStr ≠ persist_uniqueStr env2 w2.uniqueStr) :
    ((persist_names env1 w1).1 ≠ (persist_names env2 w2).1
      ∧ (persist_names env1 w1).1 ≠ (persist_names env2 w2).2
      ∧ (persist_names env1 w1).2 ≠ (persist_names env2 w2).1
      ∧ (persist_names env1 w1).2 ≠ (persist_names env2 w2).2)
    ∧ (fs_lookup (persist env1 w1).fs (persist_names env2 w2).1
          = fs_lookup w1.fs (persist_names env2 w2).1
      ∧ fs_lookup (persist env1 w1).fs (persist_names env2 w2).2
          = fs_lookup w1.fs (persist_names env2 w2).2)
    ∧ (fs_lookup (persist env2 w2).fs (persist_names env1 w1).1
          = fs_lookup w2.fs (persist_names env1 w1).1
      ∧ fs_lookup (persist env2 w2).fs (persist_names env1 w1).2
          = fs_lookup w2.fs (persist_names env1 w1).2)
    ∧ (∀ name, name = (persist_names env1 w1).1 ∨ name = (persist_names env1 w1).2
          ∨ name = (persist_names env2 w2).1 ∨ name = (persist_names env2 w2).2
        → name ≠ env1.map_path "experience.bin"
          ∧ name ≠ env1.map_path "experience_new.bin"
          ∧ ∀ N : Nat, name ≠ env1.map_path ("experience" ++ toString N ++ ".bin")) := by
  have hinj2 : Function.Injective env2.map_path := by rw [hmap]; exact hinj
  have hn1 := persist_names_concurrent env1 w1 hc1
  have hn2 := persist_names_concurrent env2 w2 hc2
  have d11 : (persist_names env1 w1).1 ≠ (persist_names env2 w2).1 := by
    rw [hn1, hn2, hmap]
    intro h
    exact htok (canonical_name_injective _ _ (hinj h))
  have d12 : (persist_names env1 w1).1 ≠ (persist_names env2 w2).2 := by
    rw [hn1, hn2, hmap]
    intro h
    exact canonical_name_ne_temporary _ _ (hinj h)
  have d21 : (persist_names env1 w1).2 ≠ (persist_names env2 w2).1 := by
    rw [hn1, hn2, hmap]
    intro h
    exact canonical_name_ne_temporary _ _ (hinj h).symm
  have d22 : (persist_names env1 w1).2 ≠ (persist_names env2 w2).2 := by
    rw [hn1, hn2, hmap]
    intro h
    exact htok (temporary_name_injective _ _ (hinj h))
  refine ⟨⟨d11, d12, d21, d22⟩, ⟨?_, ?_⟩, ⟨?_, ?_⟩, ?_⟩
  · exact persist_frame env1 w1 _ (Ne.symm d11) (Ne.symm d21)
  · exact persist_frame env1 w1 _ (Ne.symm d12) (Ne.symm d22)
  · exact persist_frame env2 w2 _ d11 d12
  · exact persist_frame env2 w2 _ d21 d22
  · intro name hname
    rcases hname with h | h | h | h
    · exact concurrent_names_ne_plain env1 w1 hc1 hinj name (Or.inl h)
    · exact concurrent_names_ne_plain env1 w1 hc1 hinj name (Or.inr h)
    · have := concurrent_names_ne_plain env2 w2 hc2 hinj2 name (Or.inl h)
      rw [hmap] at this
      exact this
    · have := concurrent_names_ne_plain env2 w2 hc2 hinj2 name (Or.inr h)
      rw [hmap] at this
      exact this

/-- Witness of C16 as amended: two processes whose generators yield 1 and 255. -/
theorem concurrent_names_isolated_witness :
    persist_uniqueStr (token_env 1) dirty_world.uniqueStr
        ≠ persist_uniqueStr (token_env 255) (second_instance []).uniqueStr
    ∧ (persist_names (token_env 1) dirty_world).1
        ≠ (persist_names (token_env 255) (second_instance [])).1 :=
  ⟨by decide,
    (concurrent_names_isolated (token_env 1) (token_env 255) dirty_world (second_instance [])
      rfl rfl rfl data_path_injective (by decide)).1.1⟩

/-- Counterexample to C16 as stated: two processes with the concurrent naming whose
generators yield the same value (the same time seeds both) compute the same pair of
names, and the `persist` of the second replaces the file the first has written. -/
theorem concurrent_names_counterexample :
    (token_env 7).concurrentExperience = true
    ∧ persist_names (token_env 7) dirty_world
        = ("data/experience-7.bin", "data/experience_new-7.bin")
    ∧ persist_names (token_env 7) (second_instance (persist (token_env 7) dirty_world).fs)
        = ("data/experience-7.bin", "data/experience_new-7.bin")
    ∧ fs_lookup (persist (token_env 7) dirty_world).fs "data/experience-7.bin"
        = some { size := 24, records := [⟨3, ⟨2, 5, 9⟩⟩], readable := true }
    ∧ fs_lookup (persist (token_env 7)
          (second_instance (persist (token_env 7) dirty_world).fs)).fs
          "data/experience-7.bin"
        = some { size := 24, records := [⟨5, ⟨4, 8, 2⟩⟩], readable := true } := by
  decide

end ShashChess
